import Mathlib

/-!
Shallow embedding of the interview-preparation agents repository.

The embedded code is the deterministic core of the two JavaScript files:
the MCQ/theory question extraction inside `generateQuestions`, and the
`ProgressTrackingAgent` class (`trackAnswer`, `extractConcepts`,
`generateRecommendedFocus`, `calculateAverageTime`,
`getPerformanceReport`).

Strings are modelled as `List Char`.  JavaScript `String.prototype.split`
with a non-empty separator is modelled by `jsSplit`, `trim` by `jsTrim`.
JavaScript numbers that appear only as division results compared against
fixed thresholds are modelled with exact rationals; the float comparison
`x / y < t` agrees with the rational comparison for every counter value a
run can produce, and the `total = 0` cases (`NaN`/`Infinity` in JS, which
compare `false` against any threshold) are modelled explicitly.
`toFixed(2)` string rendering is modelled by the value it denotes,
rounded to two decimals (`roundTo2`), wrapped in a `JsVal.str`
constructor so that the number-versus-string shape of report fields is
preserved.
-/

namespace InterviewPrep

/-- JavaScript whitespace characters relevant to `trim` (ASCII subset). -/
def isWS (c : Char) : Bool :=
  c = ' ' || c = '\t' || c = '\n' || c = '\r' || c = Char.ofNat 11 || c = Char.ofNat 12

/-- JavaScript `String.prototype.trim`: drop whitespace from both ends. -/
def jsTrim (l : List Char) : List Char :=
  ((l.dropWhile isWS).reverse.dropWhile isWS).reverse

/-- First occurrence of the (non-empty) pattern `d` in `s`: returns the part
before the occurrence and the part after it.  `none` when `d` does not occur
(or when `d` is empty, a case the embedded code never uses). -/
def breakFirst (d : List Char) : List Char → Option (List Char × List Char)
  | [] => none
  | c :: rest =>
    if ¬ d.isEmpty ∧ d.isPrefixOf (c :: rest) then
      some ([], (c :: rest).drop d.length)
    else
      (breakFirst d rest).map fun pq => (c :: pq.1, pq.2)

/-- Fuel-indexed worker for `jsSplit` (structural recursion so that the
kernel can evaluate it). -/
def jsSplitF (d : List Char) : Nat → List Char → List (List Char)
  | 0, s => [s]
  | fuel + 1, s =>
    match breakFirst d s with
    | none => [s]
    | some (p, q) => p :: jsSplitF d fuel q

/-- JavaScript `s.split(d)` for a non-empty literal separator `d`. -/
def jsSplit (d s : List Char) : List (List Char) :=
  jsSplitF d (s.length + 1) s

/-- The `"Question: "` separator used by `generateQuestions`. -/
def dQuestion : List Char := ("Question: ").toList

/-- The `"Correct:"` line marker used by `generateQuestions`. -/
def dCorrect : List Char := ("Correct:").toList

/-- The `"Model Answer:"` separator used by `generateQuestions`. -/
def dModelAnswer : List Char := ("Model Answer:").toList

/-- One parsed multiple-choice question, as pushed by `generateQuestions`:
`{ question, options, correct }`, where `correct` is `undefined` (here
`none`) when no `"Correct:"` line is found. -/
structure MCQRecord where
  question : List Char
  options : List (List Char)
  correct : Option (List Char)
deriving DecidableEq

/-- One parsed theoretical question: `{ question, modelAnswer }`. -/
structure TheoryRecord where
  question : List Char
  modelAnswer : List Char
deriving DecidableEq

/-- The sequential push-loop of `generateQuestions`: a thrown exception
aborts the whole loop, modelled by `Except`. -/
def exMapM (f : α → Except Unit β) : List α → Except Unit (List β)
  | [] => .ok []
  | x :: xs =>
    match f x with
    | .error e => .error e
    | .ok r =>
      match exMapM f xs with
      | .error e => .error e
      | .ok rs => .ok (r :: rs)

/-- The sub-expression
`lines.find(l => l.startsWith('Correct:'))?.split(':')[1].trim()` of the
mcq branch: no found line gives `undefined` (here `Option.none`); a found
line without index `[1]` after the split would give a `TypeError`
(unreachable, since a found line contains a colon), modelled by
`Except.error`. -/
def correctOfLines (lines : List (List Char)) : Except Unit (Option (List Char)) :=
  match lines.find? (fun l => dCorrect.isPrefixOf l) with
  | none => .ok none
  | some l =>
    match (jsSplit [':'] l).get? 1 with
    | none => .error ()
    | some piece => .ok (some (jsTrim piece))

/-- Parsing of one MCQ block (`generateQuestions`, mcq branch):
`lines = block.split('\n').filter(line => line.trim())`;
`question = lines[0].trim()`; `options = lines.slice(1,5).map(trim)`;
`correct` from `correctOfLines`.  Accessing `lines[0]` when `lines` is
empty is a JavaScript `TypeError`, modelled by `Except.error`. -/
def parseMcqBlock (block : List Char) : Except Unit MCQRecord :=
  let lines := (jsSplit ['\n'] block).filter fun l => !(jsTrim l).isEmpty
  match lines with
  | [] => .error ()
  | l0 :: rest =>
    match correctOfLines (l0 :: rest) with
    | .error e => .error e
    | .ok corr => .ok ⟨jsTrim l0, (rest.take 4).map jsTrim, corr⟩

/-- MCQ extraction (`generateQuestions`, mcq branch): split the raw text on
`"Question: "`, drop whitespace-only segments, parse each segment. -/
def extractMCQ (content : List Char) : Except Unit (List MCQRecord) :=
  let blocks := (jsSplit dQuestion content).filter fun b => !(jsTrim b).isEmpty
  exMapM parseMcqBlock blocks

/-- Parsing of one theory block: destructure
`[question, ...answerParts] = block.split('Model Answer:')` and rejoin the
tail.  Destructuring an empty array yields `undefined` and a subsequent
`TypeError`, modelled by `Except.error` (unreachable: split never returns
an empty array). -/
def parseTheoryBlock (block : List Char) : Except Unit TheoryRecord :=
  match jsSplit dModelAnswer block with
  | [] => .error ()
  | q :: rest => .ok ⟨jsTrim q, jsTrim (List.intercalate dModelAnswer rest)⟩

/-- Theory extraction (`generateQuestions`, theory branch). -/
def extractTheory (content : List Char) : Except Unit (List TheoryRecord) :=
  let blocks := (jsSplit dQuestion content).filter fun b => !(jsTrim b).isEmpty
  exMapM parseTheoryBlock blocks

/-! ### The ProgressTrackingAgent -/

/-- A JavaScript value reaching the report: either a number, or a string
produced by `toFixed(2)` (carrying the rounded rational it denotes), or one
of the strings `"NaN"` / `"Infinity"` produced by `toFixed` on the
non-finite results of a division by zero, or `null`. -/
inductive JsVal where
  | num (q : ℚ)
  | str (q : ℚ)
  | nanStr
  | infStr
  | null
deriving DecidableEq

/-- Per-concept counters (`{ correct: 0, total: 0 }` objects). -/
structure ConceptStats where
  correct : Nat
  total : Nat
deriving DecidableEq

/-- The per-topic record created by `trackAnswer`:
`{ correct, total, weakAreas, conceptsTests, averageTime }`.
`Set` and plain-object maps preserve insertion order, modelled by
duplicate-free / key-duplicate-free lists. -/
structure TopicStats where
  correct : Nat
  total : Nat
  weakAreas : List (List Char)
  conceptsTests : List ((List Char) × ConceptStats)
  averageTime : JsVal
deriving DecidableEq

/-- One entry of `questionHistory` (the `Date` timestamp is outside the
model). -/
structure HistEntry where
  topic : List Char
  question : List Char
  isCorrect : Bool
  evaluation : List Char
  timeTaken : Option ℚ
  concepts : List (List Char)
deriving DecidableEq

/-- The mutable state of a `ProgressTrackingAgent` instance. -/
structure AgentState where
  correctAnswers : Nat
  totalQuestions : Nat
  topicPerformance : List ((List Char) × TopicStats)
  weakAreas : List (List Char)
  questionHistory : List HistEntry
  conceptMastery : List ((List Char) × ConceptStats)
  timeSpent : List ((List Char) × List ℚ)
deriving DecidableEq

/-- The constructor of `ProgressTrackingAgent`. -/
def initialState : AgentState := ⟨0, 0, [], [], [], [], []⟩

/-- Association-list lookup (JS property read `m[k]`). -/
def alookup (k : List Char) : List ((List Char) × β) → Option β
  | [] => none
  | (k', v) :: rest => if k = k' then some v else alookup k rest

/-- `if (!m[k]) m[k] = init` — lazily create a key, appending at the end
(JS insertion order for string keys). -/
def aensure (k : List Char) (init : β) (l : List ((List Char) × β)) :
    List ((List Char) × β) :=
  if (alookup k l).isSome then l else l ++ [(k, init)]

/-- Mutate the value stored at an existing key in place; no-op when the key
is absent. -/
def aadjust (k : List Char) (f : β → β) : List ((List Char) × β) →
    List ((List Char) × β)
  | [] => []
  | (k', v) :: rest =>
    if k = k' then (k', f v) :: rest else (k', v) :: aadjust k f rest

/-- Lazily create a key with `init` and then mutate it with `f`
(the get-or-insert-then-mutate pattern of `trackAnswer`). -/
def aupsert (k : List Char) (f : β → β) (init : β) :
    List ((List Char) × β) → List ((List Char) × β)
  | [] => [(k, f init)]
  | (k', v) :: rest =>
    if k = k' then (k', f v) :: rest else (k', v) :: aupsert k f init rest

/-- `Set.prototype.add` on an insertion-ordered, duplicate-free list. -/
def addSet (x : List Char) (s : List (List Char)) : List (List Char) :=
  if x ∈ s then s else s ++ [x]

/-- The fixed concept vocabulary of `extractConcepts`. -/
def technicalTerms : List (List Char) :=
  [("array").toList, ("function").toList, ("class").toList,
   ("object").toList, ("loop").toList, ("variable").toList,
   ("recursion").toList, ("inheritance").toList, ("async").toList,
   ("promise").toList, ("component").toList, ("state").toList,
   ("props").toList, ("api").toList, ("database").toList,
   ("algorithm").toList]

/-- `extractConcepts(question)`: lower-case, split on the single space
character `' '`, collect the words that are in the fixed vocabulary into a
`Set`, and return `Array.from` of it (insertion order, duplicates
collapsed). -/
def extractConcepts (question : List Char) : List (List Char) :=
  let words := jsSplit [' '] (question.map Char.toLower)
  words.foldl (fun acc w => if w ∈ technicalTerms then addSet w acc else acc) []

/-- `toFixed(2)` as the rounded rational value it renders (round half away
from zero coincides with round half up on the non-negative inputs the code
produces). -/
def roundTo2 (q : ℚ) : ℚ := (⌊q * 100 + 1 / 2⌋ : ℚ) / 100

/-- JavaScript truthiness of the optional `timeTaken` argument: `null`
(absent) and `0` are falsy. -/
def truthy : Option ℚ → Bool
  | none => false
  | some q => q != 0

/-- The value the ternary of `calculateAverageTime` produces from a
present sample list `times`: the mean rendered by `toFixed(2)` (a string)
when `times.length > 0`, otherwise the number `0`. -/
def avgOfTimes (times : List ℚ) : JsVal :=
  if 0 < times.length then .str (roundTo2 (times.sum / times.length))
  else .num 0

/-- `calculateAverageTime(topic)`: reads `this.timeSpent[topic]` and
dereferences `.length` on it at once, so for a topic with no `timeSpent`
entry `times` is `undefined` and the method throws a `TypeError`; with a
present entry it returns the mean rendered by `toFixed(2)` (a string), or
the number `0` for a zero-length list. -/
def calculateAverageTime (topic : List Char) (s : AgentState) :
    Except Unit JsVal :=
  match alookup topic s.timeSpent with
  | none => .error ()
  | some times => .ok (avgOfTimes times)

/-- The float comparison `cs.correct / cs.total < q`.  When `total = 0` the
JS quotient is `NaN` (or `Infinity`), which compares `false` against every
threshold; otherwise the comparison is exact at the rational level. -/
def masteryLt (cs : ConceptStats) (q : ℚ) : Bool :=
  if cs.total = 0 then false else decide ((cs.correct : ℚ) / (cs.total : ℚ) < q)

/-- The fresh per-topic record of `trackAnswer`. -/
def initTopicStats : TopicStats := ⟨0, 0, [], [], .num 0⟩

/-- The per-concept counter update inside `trackAnswer`'s
`concepts.forEach` loop: lazily create and increment the global
`conceptMastery[concept]` and the per-topic
`topicStats.conceptsTests[concept]` counters. -/
def conceptStep (topic : List Char) (correctInc : Nat) (st : AgentState)
    (c : List Char) : AgentState :=
  let st1 := { st with conceptMastery :=
                 (aupsert c
                   (fun cs => { cs with total := cs.total + 1,
                                        correct := cs.correct + correctInc })
                   ⟨0, 0⟩ st.conceptMastery) }
  { st1 with topicPerformance :=
      (aadjust topic
        (fun ts => { ts with conceptsTests :=
                       (aupsert c
                         (fun cs => { cs with total := cs.total + 1,
                                              correct := cs.correct + correctInc })
                         ⟨0, 0⟩ ts.conceptsTests) })
        st1.topicPerformance) }

/-- The weak-area update inside `trackAnswer`, one concept at a time: when
the concept's global ratio is strictly below 0.7, add it to the global and
the topic's weak-area sets. -/
def weakStep (topic : List Char) (st : AgentState) (c : List Char) :
    AgentState :=
  match alookup c st.conceptMastery with
  | none => st
  | some cs =>
    if masteryLt cs (7 / 10) then
      { st with weakAreas := addSet c st.weakAreas,
                topicPerformance :=
                  (aadjust topic
                    (fun ts => { ts with weakAreas := addSet c ts.weakAreas })
                    st.topicPerformance) }
    else st

/-- Step 1 of `trackAnswer`: `totalQuestions++` and conditionally
`correctAnswers++`. -/
def bumpCounters (correctInc : Nat) (s : AgentState) : AgentState :=
  { s with totalQuestions := s.totalQuestions + 1,
           correctAnswers := s.correctAnswers + correctInc }

/-- Steps 2-3 of `trackAnswer`: lazily create the topic record, then
increment its `total`/`correct` counters. -/
def bumpTopic (topic : List Char) (correctInc : Nat) (s : AgentState) :
    AgentState :=
  let s2 := { s with topicPerformance :=
                aensure topic initTopicStats s.topicPerformance }
  { s2 with topicPerformance :=
      (aadjust topic
        (fun ts => { ts with total := ts.total + 1,
                             correct := ts.correct + correctInc })
        s2.topicPerformance) }

/-- Step 4 of `trackAnswer`: when `timeTaken` is truthy, lazily create the
topic's sample list, push the sample, and store the topic's new
`averageTime`.  At this call site `timeSpent[topic]` is exactly the
just-pushed list (the `getD []` mirrors the `if (!this.timeSpent[topic])
this.timeSpent[topic] = []` initialisation right before the push), so
`calculateAverageTime` returns normally with `avgOfTimes` of that list —
`calculateAverageTime_at_push` proves the agreement. -/
def recordTime (topic : List Char) (timeTaken : Option ℚ) (s : AgentState) :
    AgentState :=
  if truthy timeTaken then
    let tval := timeTaken.getD 0
    let newTimes := ((alookup topic s.timeSpent).getD []) ++ [tval]
    let s4a := { s with timeSpent :=
                   (aupsert topic (fun l => l ++ [tval]) [] s.timeSpent) }
    { s4a with topicPerformance :=
        (aadjust topic
          (fun ts => { ts with averageTime := avgOfTimes newTimes })
          s4a.topicPerformance) }
  else s

/-- Step 6 of `trackAnswer`: append the answer to `questionHistory`. -/
def pushHistory (topic question : List Char) (isCorrect : Bool)
    (evaluation : List Char) (timeTaken : Option ℚ)
    (concepts : List (List Char)) (s : AgentState) : AgentState :=
  { s with questionHistory :=
      s.questionHistory ++
        [⟨topic, question, isCorrect, evaluation, timeTaken, concepts⟩] }

/-- `trackAnswer` up to and including the history push (everything before
the weak-area update): counters, topic creation and counters, optional time
sample and average, per-concept counters, history. -/
def trackCore (topic question : List Char) (isCorrect : Bool)
    (evaluation : List Char) (timeTaken : Option ℚ) (s : AgentState) :
    AgentState :=
  pushHistory topic question isCorrect evaluation timeTaken
    (extractConcepts question)
    ((extractConcepts question).foldl
      (conceptStep topic (if isCorrect then 1 else 0))
      (recordTime topic timeTaken
        (bumpTopic topic (if isCorrect then 1 else 0)
          (bumpCounters (if isCorrect then 1 else 0) s))))

/-- `trackAnswer(topic, question, isCorrect, evaluation, timeTaken)`,
step by step in source order: everything through the history push
(`trackCore`), then the weak-area update for incorrect answers. -/
def trackAnswer (topic question : List Char) (isCorrect : Bool)
    (evaluation : List Char) (timeTaken : Option ℚ) (s : AgentState) :
    AgentState :=
  if isCorrect then trackCore topic question isCorrect evaluation timeTaken s
  else (extractConcepts question).foldl (weakStep topic)
    (trackCore topic question isCorrect evaluation timeTaken s)

/-- One recorded call to `trackAnswer`. -/
structure Call where
  topic : List Char
  question : List Char
  isCorrect : Bool
  evaluation : List Char
  timeTaken : Option ℚ
deriving DecidableEq

/-- Replay a sequence of `trackAnswer` calls. -/
def applyCalls (l : List Call) (s : AgentState) : AgentState :=
  l.foldl (fun st c =>
    trackAnswer c.topic c.question c.isCorrect c.evaluation c.timeTaken st) s

/-- One entry of `recommendedFocus`: `{ concept, type, mastery }` with
`type` either `'weak'` (`isWeak = true`) or `'practice'`, and `mastery`
the `toFixed(2)` percentage (the numeric sort comparator reads it back as
a number, so it is carried as the rounded rational). -/
structure FocusRec where
  concept : List Char
  isWeak : Bool
  mastery : ℚ
deriving DecidableEq

/-- `((stats.correct / stats.total) * 100).toFixed(2)`. -/
def pctOf (cs : ConceptStats) : ℚ :=
  roundTo2 ((cs.correct : ℚ) / (cs.total : ℚ) * 100)

/-- The comparator `(a, b) => a.mastery - b.mastery` as an ordering. -/
def focusLE (a b : FocusRec) : Prop := a.mastery ≤ b.mastery

instance : DecidableRel focusLE := fun a b =>
  inferInstanceAs (Decidable (a.mastery ≤ b.mastery))

instance : IsTotal FocusRec focusLE := ⟨fun a b => le_total a.mastery b.mastery⟩

instance : IsTrans FocusRec focusLE := ⟨fun _ _ _ h h' => le_trans h h'⟩

/-- The body of the first loop of `generateRecommendedFocus`: the entry
pushed for a weak-area concept (`none` when the `mastery &&` guard fails or
the ratio is not below 0.60). -/
def weakEntry (s : AgentState) (c : List Char) : Option FocusRec :=
  match alookup c s.conceptMastery with
  | none => none
  | some cs =>
    if masteryLt cs (3 / 5) then some ⟨c, true, pctOf cs⟩ else none

/-- The body of the second loop of `generateRecommendedFocus`: the entry
pushed for a tracked concept outside the weak-area set whose ratio is below
0.80. -/
def practiceEntry (s : AgentState) (p : (List Char) × ConceptStats) :
    Option FocusRec :=
  if p.1 ∈ s.weakAreas then none
  else if masteryLt p.2 (4 / 5) then some ⟨p.1, false, pctOf p.2⟩ else none

/-- `generateRecommendedFocus()`: weak-area entries with mastery below
0.60 (skipping, as the code's `mastery &&` guard does, concepts without a
mastery record), then non-weak concepts below 0.80, sorted ascending by
mastery percentage. -/
def generateRecommendedFocus (s : AgentState) : List FocusRec :=
  List.insertionSort focusLE
    (s.weakAreas.filterMap (weakEntry s) ++
      s.conceptMastery.filterMap (practiceEntry s))

/-- `((correct / total) * 100).toFixed(2)`: `"NaN"` for `0/0`, `"Infinity"`
for a positive numerator over zero, otherwise the rounded percentage
string. -/
def jsPct (c t : Nat) : JsVal :=
  if t = 0 then (if c = 0 then .nanStr else .infStr)
  else .str (roundTo2 ((c : ℚ) / (t : ℚ) * 100))

/-- The `overall` / `conceptMastery` entry shape of the report. -/
structure CountReport where
  correct : Nat
  total : Nat
  percentage : JsVal
deriving DecidableEq

/-- The `topicWise` entry shape of the report. -/
structure TopicReport where
  correct : Nat
  total : Nat
  percentage : JsVal
  weakAreas : List (List Char)
  averageTime : JsVal
deriving DecidableEq

/-- The value returned by `getPerformanceReport`. -/
structure Report where
  overall : CountReport
  topicWise : List ((List Char) × TopicReport)
  conceptMastery : List ((List Char) × CountReport)
  weakAreas : List (List Char)
  recommendedFocus : List FocusRec
deriving DecidableEq

/-! ### Well-formed MCQ texts (the prompt contract of §6) -/

/-- The structured content of one well-formed MCQ question in the prompt
contract `"Question: <text>\nA) ...\nB) ...\nC) ...\nD) ...\nCorrect: <A|B|C|D>"`. -/
structure GenQuestion where
  text : List Char
  optA : List Char
  optB : List Char
  optC : List Char
  optD : List Char
  label : Char
deriving DecidableEq

/-- The lines of one question, newline-separated, with a trailing newline. -/
def renderBlock (q : GenQuestion) : List Char :=
  q.text ++ '\n' ::
    (q.optA ++ '\n' ::
      (q.optB ++ '\n' ::
        (q.optC ++ '\n' ::
          (q.optD ++ '\n' ::
            (("Correct: ").toList ++ q.label :: ['\n'])))))

/-- A whole well-formed MCQ response text: each question introduced by the
`"Question: "` marker. -/
def renderMCQ (qs : List GenQuestion) : List Char :=
  qs.foldr (fun q acc => dQuestion ++ (renderBlock q ++ acc)) []

/-- A field (question text or option line) is well formed when it shows a
non-whitespace character, stays on one line, does not itself contain the
`"Question: "` marker and does not begin with the `"Correct:"` marker. -/
def GoodField (l : List Char) : Prop :=
  jsTrim l ≠ [] ∧ '\n' ∉ l ∧ ¬ dQuestion <:+: l ∧ ¬ dCorrect <+: l

/-- Well-formedness of one question of the prompt contract. -/
def GoodQ (q : GenQuestion) : Prop :=
  GoodField q.text ∧ GoodField q.optA ∧ GoodField q.optB ∧
    GoodField q.optC ∧ GoodField q.optD ∧ q.label ∈ ['A', 'B', 'C', 'D']

/-- The record extraction produces for a well-formed question. -/
def expectedRecord (q : GenQuestion) : MCQRecord :=
  ⟨jsTrim q.text, [jsTrim q.optA, jsTrim q.optB, jsTrim q.optC, jsTrim q.optD],
    some [q.label]⟩

instance (l : List Char) : Decidable (GoodField l) := by
  unfold GoodField; infer_instance

instance (q : GenQuestion) : Decidable (GoodQ q) := by
  unfold GoodQ; infer_instance

/-- A pattern with no non-trivial border: no proper non-empty suffix of `d`
is also a prefix of `d`.  Such a pattern cannot straddle its own boundary,
which makes `jsSplit` compositional. -/
def Unbordered (d : List Char) : Prop :=
  d ≠ [] ∧ ∀ k < d.length, 0 < k → d.drop k ≠ d.take (d.length - k)

/-! ### Spec-side predicates and invariants -/

/-- Follows the spec's words: a `recommendedFocus` entry of kind `"weak"`
is emitted exactly for the concepts of the global weak-area set whose
global ratio is strictly below 0.60. -/
def specWeakEntry (s : AgentState) (c : List Char) : Bool :=
  decide (c ∈ s.weakAreas) &&
    (match alookup c s.conceptMastery with
     | some cs => masteryLt cs (3 / 5)
     | none => false)

/-- Follows the spec's words: an entry of kind `"practice"` is emitted
exactly for the tracked concepts outside the weak-area set whose ratio is
strictly below 0.80. -/
def specPracticeEntry (s : AgentState) (c : List Char) : Bool :=
  !decide (c ∈ s.weakAreas) &&
    (match alookup c s.conceptMastery with
     | some cs => masteryLt cs (4 / 5)
     | none => false)

/-- `correctCount ≤ totalCount` for the global counters, every topic,
every global concept and every per-topic concept. -/
def CountersOK (s : AgentState) : Prop :=
  s.correctAnswers ≤ s.totalQuestions ∧
  (∀ p ∈ s.topicPerformance, p.2.correct ≤ p.2.total ∧
    ∀ q ∈ p.2.conceptsTests, q.2.correct ≤ q.2.total) ∧
  (∀ p ∈ s.conceptMastery, p.2.correct ≤ p.2.total)

/-- Structural invariants of a reachable agent state: every tracked concept
and topic has at least one recorded answer, every weak-area concept (global
or per-topic) is tracked, and the set-like lists are duplicate-free. -/
def StateInv (s : AgentState) : Prop :=
  (∀ p ∈ s.conceptMastery, 1 ≤ p.2.total) ∧
  (∀ p ∈ s.topicPerformance, 1 ≤ p.2.total) ∧
  (∀ c ∈ s.weakAreas, (alookup c s.conceptMastery).isSome = true) ∧
  (∀ p ∈ s.topicPerformance, ∀ c ∈ p.2.weakAreas,
    (alookup c s.conceptMastery).isSome = true) ∧
  s.weakAreas.Nodup ∧
  (s.conceptMastery.map Prod.fst).Nodup

/-- The time samples a call sequence records for one topic (the truthy
`timeTaken` values of that topic's calls, in order). -/
def timeSamples (t : List Char) (calls : List Call) : List ℚ :=
  calls.filterMap fun c =>
    if c.topic = t ∧ truthy c.timeTaken = true then c.timeTaken else none

/-- Relation between `timeSpent` and the per-topic `averageTime` values
maintained by `recordTime`: recorded sample lists are nonempty, only
tracked topics have samples, and every topic's `averageTime` is the
number `0` before its first sample and the `toFixed(2)` string of the
mean of its samples afterwards. -/
def TimeInv (s : AgentState) : Prop :=
  (∀ p ∈ s.timeSpent, p.2 ≠ []) ∧
  (∀ t : List Char, alookup t s.topicPerformance = none →
    alookup t s.timeSpent = none) ∧
  (∀ t ts, alookup t s.topicPerformance = some ts →
    ts.averageTime =
      match alookup t s.timeSpent with
      | none => JsVal.num 0
      | some l => JsVal.str (roundTo2 (l.sum / (l.length : ℚ))))

/-- `getPerformanceReport()`. -/
def getPerformanceReport (s : AgentState) : Report :=
  { overall := ⟨s.correctAnswers, s.totalQuestions,
                jsPct s.correctAnswers s.totalQuestions⟩,
    topicWise := s.topicPerformance.map fun p =>
      (p.1, ⟨p.2.correct, p.2.total, jsPct p.2.correct p.2.total,
             p.2.weakAreas, p.2.averageTime⟩),
    conceptMastery := s.conceptMastery.map fun p =>
      (p.1, ⟨p.2.correct, p.2.total, jsPct p.2.correct p.2.total⟩),
    weakAreas := s.weakAreas,
    recommendedFocus := generateRecommendedFocus s }

/-! ### Lemmas about `breakFirst` and `jsSplit` -/

theorem breakFirst_nil (d : List Char) : breakFirst d [] = none := rfl

theorem breakFirst_cons (d : List Char) (c : Char) (rest : List Char) :
    breakFirst d (c :: rest) =
      if ¬ d.isEmpty ∧ d.isPrefixOf (c :: rest) then
        some ([], (c :: rest).drop d.length)
      else
        (breakFirst d rest).map fun pq => (c :: pq.1, pq.2) := rfl

theorem breakFirst_sound {d s p q : List Char}
    (h : breakFirst d s = some (p, q)) : s = p ++ d ++ q ∧ d ≠ [] := by
  induction s generalizing p with
  | nil => simp [breakFirst_nil] at h
  | cons c rest ih =>
    rw [breakFirst_cons] at h
    split at h
    · rename_i hc
      have hdpfx : d <+: c :: rest := (List.isPrefixOf_iff_prefix).mp hc.2
      obtain ⟨r, hr⟩ := hdpfx
      simp only [Option.some.injEq, Prod.mk.injEq] at h
      obtain ⟨hp, hq⟩ := h
      subst hp
      have hdrop : (c :: rest).drop d.length = r := by
        rw [← hr]; exact List.drop_left _ _
      refine ⟨?_, by simpa [List.isEmpty_iff] using hc.1⟩
      rw [← hq, hdrop, List.nil_append, hr]
    · cases hb : breakFirst d rest with
      | none => rw [hb] at h; simp at h
      | some pq =>
        obtain ⟨p', q'⟩ := pq
        rw [hb] at h
        simp only [Option.map_some', Option.some.injEq, Prod.mk.injEq] at h
        obtain ⟨hp, hq⟩ := h
        subst hp hq
        obtain ⟨hrest, hd⟩ := ih hb
        exact ⟨by simp [hrest], hd⟩

theorem breakFirst_shrinks {d s p q : List Char}
    (h : breakFirst d s = some (p, q)) : q.length < s.length := by
  obtain ⟨hs, hd⟩ := breakFirst_sound h
  have : 1 ≤ d.length := by
    cases d with
    | nil => exact absurd rfl hd
    | cons a l => simp
  subst hs
  simp only [List.length_append]
  omega

theorem breakFirst_isSome_of_infix {d s : List Char} (hd : d ≠ [])
    (hinf : d <:+: s) : breakFirst d s ≠ none := by
  obtain ⟨pre, post, hs⟩ := hinf
  subst hs
  induction pre with
  | nil =>
    cases d with
    | nil => exact absurd rfl hd
    | cons e d' =>
      intro hnone
      simp only [List.nil_append, List.cons_append] at hnone
      rw [breakFirst_cons, if_pos] at hnone
      · exact Option.noConfusion hnone
      · refine ⟨by simp [List.isEmpty_iff], ?_⟩
        exact (List.isPrefixOf_iff_prefix).mpr ⟨post, by simp⟩
  | cons a pre' ih =>
    intro hnone
    simp only [List.cons_append] at hnone
    rw [breakFirst_cons] at hnone
    split at hnone
    · exact Option.noConfusion hnone
    · cases hb : breakFirst d (pre' ++ d ++ post) with
      | none => exact ih hb
      | some pq =>
        rw [hb] at hnone
        simp at hnone

theorem breakFirst_eq_none_iff {d s : List Char} (hd : d ≠ []) :
    breakFirst d s = none ↔ ¬ d <:+: s := by
  constructor
  · intro hnone hinf
    exact breakFirst_isSome_of_infix hd hinf hnone
  · intro hni
    cases hb : breakFirst d s with
    | none => rfl
    | some pq =>
      obtain ⟨hs, _⟩ := breakFirst_sound hb
      exact absurd ⟨pq.1, pq.2, hs.symm⟩ hni

theorem breakFirst_append_pattern {d s t : List Char} (hu : Unbordered d)
    (hs : ¬ d <:+: s) : breakFirst d (s ++ d ++ t) = some (s, t) := by
  obtain ⟨hd, hub⟩ := hu
  induction s with
  | nil =>
    cases d with
    | nil => exact absurd rfl hd
    | cons e d' =>
      simp only [List.nil_append, List.cons_append]
      rw [breakFirst_cons, if_pos]
      · have hdrop : (e :: (d' ++ t)).drop (e :: d').length = t := by
          have h := List.drop_left (e :: d') t
          simp only [List.cons_append] at h
          exact h
        rw [hdrop]
      · refine ⟨by simp [List.isEmpty_iff], ?_⟩
        exact (List.isPrefixOf_iff_prefix).mpr ⟨t, by simp⟩
  | cons c s' ih =>
    have hnotpfx : ¬ d <+: (c :: s') ++ (d ++ t) := by
      intro hpfx
      by_cases hle : d.length ≤ (c :: s').length
      · have hps : (c :: s') <+: (c :: s') ++ (d ++ t) := List.prefix_append _ _
        have : d <+: c :: s' := List.prefix_of_prefix_length_le hpfx hps hle
        exact hs this.isInfix
      · push_neg at hle
        have hps : (c :: s') <+: (c :: s') ++ (d ++ t) := List.prefix_append _ _
        have hcsd : (c :: s') <+: d :=
          List.prefix_of_prefix_length_le hps hpfx (le_of_lt hle)
        obtain ⟨r, hr⟩ := hcsd
        have hrpfx : r <+: d ++ t := by
          obtain ⟨w, hw⟩ := hpfx
          have hw' : (c :: s') ++ (r ++ w) = (c :: s') ++ (d ++ t) := by
            rw [← List.append_assoc, hr, hw]
          exact ⟨w, List.append_cancel_left hw'⟩
        have hrlen : r.length ≤ d.length := by
          have := congrArg List.length hr
          simp only [List.length_append] at this
          omega
        have hrd : r <+: d :=
          List.prefix_of_prefix_length_le hrpfx (List.prefix_append _ _) hrlen
        have hk1 : (c :: s').length < d.length := hle
        have hdrop : d.drop (c :: s').length = r := by
          rw [← hr]; exact List.drop_left _ _
        have htake : d.take (d.length - (c :: s').length) = r := by
          have hlen : r.length = d.length - (c :: s').length := by
            have := congrArg List.length hr
            simp only [List.length_append] at this
            omega
          rw [← hlen]
          exact (List.prefix_iff_eq_take.mp hrd).symm
        exact hub (c :: s').length hk1 (by simp) (hdrop.trans htake.symm)
    have hcond : ¬ (¬ d.isEmpty = true ∧ d.isPrefixOf (c :: (s' ++ d ++ t)) = true) := by
      intro hcnd
      apply hnotpfx
      have := (List.isPrefixOf_iff_prefix).mp hcnd.2
      simpa [List.append_assoc] using this
    have hs' : ¬ d <:+: s' := fun hh => hs (List.infix_cons hh)
    have hstep : breakFirst d (c :: (s' ++ d ++ t)) =
        (breakFirst d (s' ++ d ++ t)).map fun pq => (c :: pq.1, pq.2) := by
      rw [breakFirst_cons, if_neg hcond]
    calc breakFirst d ((c :: s') ++ d ++ t)
        = breakFirst d (c :: (s' ++ d ++ t)) := by simp
      _ = (breakFirst d (s' ++ d ++ t)).map fun pq => (c :: pq.1, pq.2) := hstep
      _ = some (c :: s', t) := by rw [ih hs']; rfl

theorem jsSplitF_succ_none {d s : List Char} (f : Nat)
    (h : breakFirst d s = none) : jsSplitF d (f + 1) s = [s] := by
  rw [jsSplitF, h]

theorem jsSplitF_succ_some {d s p q : List Char} (f : Nat)
    (h : breakFirst d s = some (p, q)) :
    jsSplitF d (f + 1) s = p :: jsSplitF d f q := by
  rw [jsSplitF, h]

theorem jsSplitF_irrel {d : List Char} :
    ∀ f s, s.length < f → jsSplitF d f s = jsSplit d s := by
  intro f
  induction f using Nat.strong_induction_on with
  | _ f ihf =>
    intro s hlen
    match f, hlen with
    | f + 1, hlen =>
      rw [jsSplit]
      cases hb : breakFirst d s with
      | none => rw [jsSplitF_succ_none f hb, jsSplitF_succ_none s.length hb]
      | some pq =>
        obtain ⟨p, q⟩ := pq
        have hq : q.length < s.length := breakFirst_shrinks hb
        rw [jsSplitF_succ_some f hb, jsSplitF_succ_some s.length hb]
        have h1 : jsSplitF d f q = jsSplit d q :=
          ihf f (Nat.lt_succ_self f) q (by omega)
        have h2 : jsSplitF d s.length q = jsSplit d q :=
          ihf s.length (by omega) q hq
        rw [h1, h2]

theorem jsSplit_of_breakFirst_none {d s : List Char}
    (h : breakFirst d s = none) : jsSplit d s = [s] :=
  jsSplitF_succ_none s.length h

theorem jsSplit_of_breakFirst_some {d s p q : List Char}
    (h : breakFirst d s = some (p, q)) : jsSplit d s = p :: jsSplit d q := by
  rw [jsSplit, jsSplitF_succ_some s.length h]
  exact congrArg _ (jsSplitF_irrel s.length q (breakFirst_shrinks h))

theorem jsSplit_single {d s : List Char} (hd : d ≠ []) (hs : ¬ d <:+: s) :
    jsSplit d s = [s] :=
  jsSplit_of_breakFirst_none ((breakFirst_eq_none_iff hd).mpr hs)

theorem jsSplit_append_pattern {d s t : List Char} (hu : Unbordered d)
    (hs : ¬ d <:+: s) : jsSplit d (s ++ d ++ t) = s :: jsSplit d t :=
  jsSplit_of_breakFirst_some (breakFirst_append_pattern hu hs)

theorem jsSplit_ne_nil (d s : List Char) : jsSplit d s ≠ [] := by
  cases hb : breakFirst d s with
  | none => rw [jsSplit_of_breakFirst_none hb]; simp
  | some pq => rw [jsSplit_of_breakFirst_some (p := pq.1) (q := pq.2) (by simpa using hb)]; simp

theorem singleton_infix_iff {c : Char} {s : List Char} :
    [c] <:+: s ↔ c ∈ s := by
  constructor
  · rintro ⟨u, v, rfl⟩
    simp
  · intro hm
    obtain ⟨u, v, rfl⟩ := List.append_of_mem hm
    exact ⟨u, v, by simp⟩

theorem unbordered_singleton (c : Char) : Unbordered [c] :=
  ⟨by simp, fun k hk hk0 =>
    absurd hk (by simp only [List.length_cons, List.length_nil]; omega)⟩

theorem unbordered_dQuestion : Unbordered dQuestion := by
  constructor
  · decide
  · decide

theorem jsSplit_singleton_not_mem {c : Char} {s : List Char} (h : c ∉ s) :
    jsSplit [c] s = [s] :=
  jsSplit_single (by simp) (fun hinf => h (singleton_infix_iff.mp hinf))

theorem jsSplit_singleton_cons {c : Char} {s t : List Char} (h : c ∉ s) :
    jsSplit [c] (s ++ c :: t) = s :: jsSplit [c] t := by
  have := jsSplit_append_pattern (unbordered_singleton c)
    (fun hinf => h (singleton_infix_iff.mp hinf)) (t := t) (s := s)
  simpa using this

theorem prefix_append_cons {l u v : List Char} {c : Char}
    (h : l <+: u ++ c :: v) : c ∈ l ∨ l <+: u := by
  induction u generalizing l with
  | nil =>
    cases l with
    | nil => exact Or.inr List.nil_prefix
    | cons e l' =>
      rw [List.nil_append, List.cons_prefix_cons] at h
      exact Or.inl (by rw [h.1]; exact List.mem_cons_self _ _)
  | cons b u' ih =>
    cases l with
    | nil => exact Or.inr List.nil_prefix
    | cons e l' =>
      rw [List.cons_append, List.cons_prefix_cons] at h
      obtain ⟨rfl, h2⟩ := h
      rcases ih h2 with hm | hp
      · exact Or.inl (List.mem_cons_of_mem _ hm)
      · exact Or.inr (List.cons_prefix_cons.mpr ⟨rfl, hp⟩)

theorem infix_append_cons {d s t : List Char} {c : Char} (hc : c ∉ d)
    (h : d <:+: s ++ c :: t) : d <:+: s ∨ d <:+: t := by
  induction s with
  | nil =>
    rw [List.nil_append] at h
    rcases List.infix_cons_iff.mp h with hpfx | hinf
    · cases d with
      | nil => exact Or.inl List.nil_infix
      | cons e d' =>
        rw [List.cons_prefix_cons] at hpfx
        exact absurd (show c ∈ e :: d' by
          rw [hpfx.1]; exact List.mem_cons_self _ _) hc
    · exact Or.inr hinf
  | cons a s' ih =>
    rw [List.cons_append] at h
    rcases List.infix_cons_iff.mp h with hpfx | hinf
    · cases d with
      | nil => exact Or.inl List.nil_infix
      | cons e d' =>
        rw [List.cons_prefix_cons] at hpfx
        obtain ⟨rfl, h2⟩ := hpfx
        rcases prefix_append_cons h2 with hm | hp
        · exact absurd (List.mem_cons_of_mem _ hm) hc
        · exact Or.inl (List.IsPrefix.isInfix (List.cons_prefix_cons.mpr ⟨rfl, hp⟩))
    · rcases ih hinf with h1 | h2
      · exact Or.inl (List.infix_cons h1)
      · exact Or.inr h2

theorem not_infix_append_cons {d s t : List Char} {c : Char} (hc : c ∉ d)
    (hs : ¬ d <:+: s) (ht : ¬ d <:+: t) : ¬ d <:+: s ++ c :: t := fun h =>
  (infix_append_cons hc h).elim hs ht

/-! ### Lemmas about `jsTrim` -/

theorem jsTrim_eq_nil_iff {l : List Char} :
    jsTrim l = [] ↔ ∀ c ∈ l, isWS c = true := by
  rw [jsTrim, List.reverse_eq_nil_iff, List.dropWhile_eq_nil_iff]
  constructor
  · intro h c hc
    rw [← List.takeWhile_append_dropWhile (p := isWS) (l := l)] at hc
    rcases List.mem_append.mp hc with h1 | h2
    · exact List.mem_takeWhile_imp h1
    · exact h c (List.mem_reverse.mpr h2)
  · intro h c hc
    exact h c ((List.dropWhile_sublist _).mem (List.mem_reverse.mp hc))

/-! ### Totality of the extraction pipeline -/

theorem allWS_of_jsSplit {c : Char} (hw : isWS c = true) :
    ∀ n s, s.length ≤ n →
      (∀ l ∈ jsSplit [c] s, ∀ x ∈ l, isWS x = true) →
      ∀ x ∈ s, isWS x = true := by
  intro n
  induction n with
  | zero =>
    intro s hlen _ x hx
    have hnil : s = [] := List.length_eq_zero.mp (Nat.le_zero.mp hlen)
    subst hnil
    simp at hx
  | succ n ihn =>
    intro s hlen hall x hx
    cases hb : breakFirst [c] s with
    | none =>
      have hsp := jsSplit_of_breakFirst_none hb
      rw [hsp] at hall
      exact hall s (List.mem_singleton.mpr rfl) x hx
    | some pq =>
      obtain ⟨p, q⟩ := pq
      obtain ⟨hs, _⟩ := breakFirst_sound hb
      have hsplit := jsSplit_of_breakFirst_some hb
      have hshr := breakFirst_shrinks hb
      have hq : q.length ≤ n := by omega
      have hallq : ∀ l ∈ jsSplit [c] q, ∀ x ∈ l, isWS x = true := fun l hl =>
        hall l (by rw [hsplit]; exact List.mem_cons_of_mem _ hl)
      have hqws := ihn q hq hallq
      have hpws : ∀ y ∈ p, isWS y = true := fun y hy =>
        hall p (by rw [hsplit]; exact List.mem_cons_self _ _) y hy
      rw [hs] at hx
      rcases List.mem_append.mp hx with h1 | h2
      · rcases List.mem_append.mp h1 with h1a | h1b
        · exact hpws x h1a
        · rw [List.mem_singleton.mp h1b]
          exact hw
      · exact hqws x h2

theorem exists_line_not_ws {s : List Char} (c : Char) (hw : isWS c = true)
    (hs : jsTrim s ≠ []) : ∃ l ∈ jsSplit [c] s, jsTrim l ≠ [] := by
  by_contra hno
  push_neg at hno
  apply hs
  rw [jsTrim_eq_nil_iff]
  refine allWS_of_jsSplit hw s.length s le_rfl ?_
  intro l hl x hx
  exact (jsTrim_eq_nil_iff.mp (hno l hl)) x hx

theorem colon_mem_of_correct_line {l : List Char}
    (h : dCorrect.isPrefixOf l = true) : (':' : Char) ∈ l := by
  obtain ⟨r, hr⟩ := (List.isPrefixOf_iff_prefix).mp h
  rw [← hr]
  exact List.mem_append_left r (by decide)

theorem jsSplit_get?_one_isSome {c : Char} {l : List Char} (hm : c ∈ l) :
    ∃ piece, (jsSplit [c] l).get? 1 = some piece := by
  cases hb : breakFirst [c] l with
  | none =>
    exact absurd ((breakFirst_eq_none_iff (by simp)).mp hb)
      (not_not.mpr (singleton_infix_iff.mpr hm))
  | some pq =>
    have hsplit := jsSplit_of_breakFirst_some (p := pq.1) (q := pq.2)
      (by simpa using hb)
    obtain ⟨x, xs, hxq⟩ := List.exists_cons_of_ne_nil (jsSplit_ne_nil [c] pq.2)
    exact ⟨x, by rw [hsplit, hxq]; rfl⟩

theorem correctOfLines_ok (lines : List (List Char)) :
    ∃ v, correctOfLines lines = .ok v := by
  rw [correctOfLines]
  cases hfind : lines.find? (fun x => dCorrect.isPrefixOf x) with
  | none => exact ⟨none, rfl⟩
  | some lc =>
    have hpfx : dCorrect.isPrefixOf lc = true := List.find?_some hfind
    obtain ⟨piece, hpiece⟩ :=
      jsSplit_get?_one_isSome (colon_mem_of_correct_line hpfx)
    refine ⟨some (jsTrim piece), ?_⟩
    show (match (jsSplit [':'] lc).get? 1 with
      | none => (Except.error () : Except Unit (Option (List Char)))
      | some piece => Except.ok (some (jsTrim piece))) = _
    rw [hpiece]

theorem parseMcqBlock_eq {block : List Char} {l0 : List Char}
    {rest : List (List Char)}
    (hcons : (jsSplit ['\n'] block).filter (fun x => !(jsTrim x).isEmpty) =
      l0 :: rest) :
    parseMcqBlock block =
      match correctOfLines (l0 :: rest) with
      | .error e => .error e
      | .ok corr => .ok ⟨jsTrim l0, (rest.take 4).map jsTrim, corr⟩ := by
  rw [parseMcqBlock, hcons]

theorem parseMcqBlock_ok {block : List Char} (hb : jsTrim block ≠ []) :
    ∃ r, parseMcqBlock block = .ok r := by
  obtain ⟨l, hlmem, hlt⟩ := exists_line_not_ws '\n' (by decide) hb
  have hlin : l ∈ (jsSplit ['\n'] block).filter fun x => !(jsTrim x).isEmpty :=
    List.mem_filter.mpr ⟨hlmem, by simp [List.isEmpty_iff, hlt]⟩
  have hne : (jsSplit ['\n'] block).filter (fun x => !(jsTrim x).isEmpty) ≠ [] :=
    fun h0 => by rw [h0] at hlin; simp at hlin
  obtain ⟨l0, rest, hcons⟩ := List.exists_cons_of_ne_nil hne
  rw [parseMcqBlock_eq hcons]
  obtain ⟨v, hv⟩ := correctOfLines_ok (l0 :: rest)
  rw [hv]
  exact ⟨_, rfl⟩

theorem exMapM_ok {f : α → Except Unit β} {l : List α}
    (h : ∀ x ∈ l, ∃ r, f x = .ok r) : ∃ rs, exMapM f l = .ok rs := by
  induction l with
  | nil => exact ⟨[], rfl⟩
  | cons x xs ih =>
    obtain ⟨r, hr⟩ := h x (List.mem_cons_self _ _)
    obtain ⟨rs, hrs⟩ := ih fun y hy => h y (List.mem_cons_of_mem _ hy)
    exact ⟨r :: rs, by rw [exMapM, hr, hrs]⟩

theorem extractMCQ_ok (content : List Char) :
    ∃ rs, extractMCQ content = .ok rs := by
  rw [extractMCQ]
  apply exMapM_ok
  intro b hbm
  have := (List.mem_filter.mp hbm).2
  exact parseMcqBlock_ok (by simpa [List.isEmpty_iff] using this)

theorem parseTheoryBlock_ok (block : List Char) :
    ∃ r, parseTheoryBlock block = .ok r := by
  rw [parseTheoryBlock]
  obtain ⟨q, rest, hq⟩ :=
    List.exists_cons_of_ne_nil (jsSplit_ne_nil dModelAnswer block)
  rw [hq]
  exact ⟨_, rfl⟩

theorem extractTheory_ok (content : List Char) :
    ∃ rs, extractTheory content = .ok rs := by
  rw [extractTheory]
  exact exMapM_ok fun b _ => parseTheoryBlock_ok b

theorem parseMcqBlock_no_correct {block : List Char} (hb : jsTrim block ≠ [])
    (hnc : ∀ l ∈ jsSplit ['\n'] block, ¬ dCorrect.isPrefixOf l = true) :
    ∃ r, parseMcqBlock block = .ok r ∧ r.correct = none := by
  obtain ⟨l, hlmem, hlt⟩ := exists_line_not_ws '\n' (by decide) hb
  have hlin : l ∈ (jsSplit ['\n'] block).filter fun x => !(jsTrim x).isEmpty :=
    List.mem_filter.mpr ⟨hlmem, by simp [List.isEmpty_iff, hlt]⟩
  have hne : (jsSplit ['\n'] block).filter (fun x => !(jsTrim x).isEmpty) ≠ [] :=
    fun h0 => by rw [h0] at hlin; simp at hlin
  obtain ⟨l0, rest, hcons⟩ := List.exists_cons_of_ne_nil hne
  have hfind : (l0 :: rest).find? (fun x => dCorrect.isPrefixOf x) = none := by
    rw [List.find?_eq_none]
    intro a ha
    have : a ∈ (jsSplit ['\n'] block).filter fun x => !(jsTrim x).isEmpty := by
      rw [hcons]; exact ha
    exact hnc a (List.mem_filter.mp this).1
  have hcor : correctOfLines (l0 :: rest) = .ok none := by
    rw [correctOfLines, hfind]
  rw [parseMcqBlock_eq hcons, hcor]
  exact ⟨_, rfl, rfl⟩

/-- C8: for every input string and both kinds, extraction is total and
never raises; `extract("")` returns the empty sequence; and a segment with
no `"Correct:"` line parses to a record whose `correct` field is absent
rather than raising. -/
theorem claim_C8_extraction_total :
    (∀ content, ∃ rs, extractMCQ content = .ok rs) ∧
    (∀ content, ∃ rs, extractTheory content = .ok rs) ∧
    extractMCQ [] = .ok [] ∧
    extractTheory [] = .ok [] ∧
    (∀ block, jsTrim block ≠ [] →
      (∀ l ∈ jsSplit ['\n'] block, ¬ dCorrect.isPrefixOf l = true) →
      ∃ r, parseMcqBlock block = .ok r ∧ r.correct = none) :=
  ⟨extractMCQ_ok, extractTheory_ok, rfl, rfl,
    fun _ hb hnc => parseMcqBlock_no_correct hb hnc⟩

/-- Witness for C8: a concrete segment without a `"Correct:"` line parses
without error and with an absent `correct` field. -/
theorem claim_C8_witness :
    ∃ r, parseMcqBlock (("What is it?\nA) a\nB) b\nC) c\nD) d\n").toList) =
      .ok r ∧ r.correct = none :=
  claim_C8_extraction_total.2.2.2.2
    (("What is it?\nA) a\nB) b\nC) c\nD) d\n").toList)
    (by decide) (by decide)

/-- C3 fails on the code: for the `"Correct:"` line
`"Correct: A: since always"`, the code's `split(':')[1]` keeps only the
text between the first and the second colon, so the extracted label is
`"A"`, not the full trimmed text after the first colon
(`"A: since always"`). -/
theorem claim_C3_counterexample :
    extractMCQ
      (("Question: Which?\nA) a\nB) b\nC) c\nD) d\nCorrect: A: since always\n").toList) =
      .ok [⟨("Which?").toList,
            [("A) a").toList, ("B) b").toList, ("C) c").toList, ("D) d").toList],
            some (("A").toList)⟩] ∧
    ("A").toList ≠ jsTrim ((" A: since always").toList) := by
  constructor
  · rfl
  · decide

/-- C3 amended: the extracted `correctLabel` is the text strictly between
the first and the second colon of the first `"Correct:"` line (or the whole
text after the first colon when no second colon exists), trimmed. -/
theorem claim_C3_label_between_colons :
    (∀ u w : List Char, (':' : Char) ∉ u →
      correctOfLines [dCorrect ++ (u ++ ':' :: w)] = .ok (some (jsTrim u))) ∧
    (∀ u : List Char, (':' : Char) ∉ u →
      correctOfLines [dCorrect ++ u] = .ok (some (jsTrim u))) := by
  have hfind : ∀ rest : List Char,
      ([dCorrect ++ rest].find? fun x => dCorrect.isPrefixOf x) =
        some (dCorrect ++ rest) := by
    intro rest
    have hp : dCorrect.isPrefixOf (dCorrect ++ rest) = true :=
      (List.isPrefixOf_iff_prefix).mpr ⟨rest, rfl⟩
    simp [List.find?_cons, hp]
  have hdc : dCorrect = ("Correct").toList ++ ':' :: [] := by decide
  have hnc : (':' : Char) ∉ ("Correct").toList := by decide
  constructor
  · intro u w hu
    rw [correctOfLines, hfind]
    show (match (jsSplit [':'] (dCorrect ++ (u ++ ':' :: w))).get? 1 with
      | none => (Except.error () : Except Unit (Option (List Char)))
      | some piece => Except.ok (some (jsTrim piece))) = _
    have hsplit : jsSplit [':'] (dCorrect ++ (u ++ ':' :: w)) =
        ("Correct").toList :: u :: jsSplit [':'] w := by
      have h1 : dCorrect ++ (u ++ ':' :: w) =
          ("Correct").toList ++ ':' :: (u ++ ':' :: w) := by
        rw [hdc]; simp
      rw [h1, jsSplit_singleton_cons hnc, jsSplit_singleton_cons hu]
    rw [hsplit]
    rfl
  · intro u hu
    rw [correctOfLines, hfind]
    show (match (jsSplit [':'] (dCorrect ++ u)).get? 1 with
      | none => (Except.error () : Except Unit (Option (List Char)))
      | some piece => Except.ok (some (jsTrim piece))) = _
    have hsplit : jsSplit [':'] (dCorrect ++ u) =
        ("Correct").toList :: [u] := by
      have h1 : dCorrect ++ u = ("Correct").toList ++ ':' :: u := by
        rw [hdc]; simp
      rw [h1, jsSplit_singleton_cons hnc, jsSplit_singleton_not_mem hu]
    rw [hsplit]
    rfl

/-! ### Well-formed MCQ texts round-trip (C7) -/

theorem label_facts {a : Char} (h : a ∈ ['A', 'B', 'C', 'D']) :
    isWS a = false ∧ a ≠ ':' ∧ a ≠ '\n' ∧ a ∉ dQuestion := by
  fin_cases h <;> refine ⟨by decide, by decide, by decide, by decide⟩

theorem exists_not_ws_of_jsTrim_ne_nil {l : List Char} (h : jsTrim l ≠ []) :
    ∃ c ∈ l, isWS c = false := by
  by_contra hno
  push_neg at hno
  exact h (jsTrim_eq_nil_iff.mpr fun c hc => by
    have := hno c hc
    cases hws : isWS c with
    | false => exact absurd hws this
    | true => rfl)

theorem jsTrim_ne_nil_of_mem {l : List Char} {c : Char} (hm : c ∈ l)
    (hc : isWS c = false) : jsTrim l ≠ [] := fun h0 =>
  absurd (jsTrim_eq_nil_iff.mp h0 c hm) (by rw [hc]; exact Bool.false_ne_true)

theorem jsTrim_space_pair {a : Char} (ha : isWS a = false) :
    jsTrim [' ', a] = [a] := by
  have h1 : isWS ' ' = true := by decide
  simp [jsTrim, List.dropWhile, h1, ha]

theorem not_infix_renderBlock {q : GenQuestion} (hq : GoodQ q) :
    ¬ dQuestion <:+: renderBlock q := by
  obtain ⟨ht, ha, hb, hc, hd, hl⟩ := hq
  obtain ⟨_, _, _, hnq⟩ := label_facts hl
  have hnl : ('\n' : Char) ∉ dQuestion := by decide
  rw [renderBlock]
  refine not_infix_append_cons hnl ht.2.2.1 ?_
  refine not_infix_append_cons hnl ha.2.2.1 ?_
  refine not_infix_append_cons hnl hb.2.2.1 ?_
  refine not_infix_append_cons hnl hc.2.2.1 ?_
  refine not_infix_append_cons hnl hd.2.2.1 ?_
  refine not_infix_append_cons hnq (by decide) ?_
  decide

theorem jsSplit_renderBlock_lines {q : GenQuestion} (hq : GoodQ q) :
    jsSplit ['\n'] (renderBlock q) =
      [q.text, q.optA, q.optB, q.optC, q.optD,
        ("Correct: ").toList ++ [q.label], []] := by
  obtain ⟨ht, ha, hb, hc, hd, hl⟩ := hq
  have hcorr : ('\n' : Char) ∉ ("Correct: ").toList ++ [q.label] := by
    intro hm
    rcases List.mem_append.mp hm with h1 | h2
    · exact absurd h1 (by decide)
    · exact absurd (List.mem_singleton.mp h2).symm (label_facts hl).2.2.1
  have hre : ("Correct: ").toList ++ q.label :: ['\n'] =
      (("Correct: ").toList ++ [q.label]) ++ '\n' :: [] := by simp
  have hnil : jsSplit ['\n'] ([] : List Char) = [[]] :=
    jsSplit_of_breakFirst_none rfl
  rw [renderBlock, jsSplit_singleton_cons ht.2.1,
    jsSplit_singleton_cons ha.2.1, jsSplit_singleton_cons hb.2.1,
    jsSplit_singleton_cons hc.2.1, jsSplit_singleton_cons hd.2.1, hre,
    jsSplit_singleton_cons hcorr, hnil]

theorem parseMcqBlock_renderBlock {q : GenQuestion} (hq : GoodQ q) :
    parseMcqBlock (renderBlock q) = .ok (expectedRecord q) := by
  have hlines := jsSplit_renderBlock_lines hq
  obtain ⟨ht, ha, hb, hc, hd, hl⟩ := hq
  obtain ⟨hlws, hlcolon, hlnl, _⟩ := label_facts hl
  have hcorrne : jsTrim (("Correct: ").toList ++ [q.label]) ≠ [] :=
    jsTrim_ne_nil_of_mem (List.mem_append_left _ (by decide))
      (show isWS 'C' = false by decide)
  have hfil : (jsSplit ['\n'] (renderBlock q)).filter
      (fun l => !(jsTrim l).isEmpty) =
      [q.text, q.optA, q.optB, q.optC, q.optD,
        ("Correct: ").toList ++ [q.label]] := by
    rw [hlines]
    have e1 : (!(jsTrim q.text).isEmpty) = true := by simpa using ht.1
    have e2 : (!(jsTrim q.optA).isEmpty) = true := by simpa using ha.1
    have e3 : (!(jsTrim q.optB).isEmpty) = true := by simpa using hb.1
    have e4 : (!(jsTrim q.optC).isEmpty) = true := by simpa using hc.1
    have e5 : (!(jsTrim q.optD).isEmpty) = true := by simpa using hd.1
    have e6 : (!(jsTrim (("Correct: ").toList ++ [q.label])).isEmpty) = true := by
      simpa using hcorrne
    have e7 : (!(jsTrim ([] : List Char)).isEmpty) = false := by decide
    simp only [List.filter_cons, e1, e2, e3, e4, e5, e6, e7, if_true, if_false,
      List.filter_nil]
    rfl
  have hnpfx : ∀ l, ¬ dCorrect <+: l → dCorrect.isPrefixOf l = false := by
    intro l hnp
    cases hx : dCorrect.isPrefixOf l with
    | false => rfl
    | true => exact absurd ((List.isPrefixOf_iff_prefix).mp hx) hnp
  have hppos : dCorrect.isPrefixOf (("Correct: ").toList ++ [q.label]) = true := by
    have he : ("Correct: ").toList ++ [q.label] = dCorrect ++ (' ' :: [q.label]) := rfl
    rw [he]
    exact (List.isPrefixOf_iff_prefix).mpr (List.prefix_append _ _)
  have hfind : ([q.text, q.optA, q.optB, q.optC, q.optD,
      ("Correct: ").toList ++ [q.label]].find? fun l => dCorrect.isPrefixOf l) =
      some (("Correct: ").toList ++ [q.label]) := by
    rw [List.find?_cons_of_neg _ (by simp [hnpfx _ ht.2.2.2]),
      List.find?_cons_of_neg _ (by simp [hnpfx _ ha.2.2.2]),
      List.find?_cons_of_neg _ (by simp [hnpfx _ hb.2.2.2]),
      List.find?_cons_of_neg _ (by simp [hnpfx _ hc.2.2.2]),
      List.find?_cons_of_neg _ (by simp [hnpfx _ hd.2.2.2]),
      List.find?_cons_of_pos _ (by exact hppos)]
  have hcsplit : jsSplit [':'] (("Correct: ").toList ++ [q.label]) =
      [("Correct").toList, [' ', q.label]] := by
    have h1 : ("Correct: ").toList ++ [q.label] =
        ("Correct").toList ++ ':' :: (' ' :: [q.label]) := rfl
    rw [h1, jsSplit_singleton_cons (by decide),
      jsSplit_singleton_not_mem (by
        intro hm
        rcases List.mem_cons.mp hm with h2 | h2
        · exact absurd h2.symm (by decide)
        · exact absurd (List.mem_singleton.mp h2).symm hlcolon)]
  have hcor : correctOfLines [q.text, q.optA, q.optB, q.optC, q.optD,
      ("Correct: ").toList ++ [q.label]] = .ok (some [q.label]) := by
    rw [correctOfLines, hfind]
    show (match (jsSplit [':'] (("Correct: ").toList ++ [q.label])).get? 1 with
      | none => (Except.error () : Except Unit (Option (List Char)))
      | some piece => Except.ok (some (jsTrim piece))) = _
    rw [hcsplit]
    show Except.ok (some (jsTrim [' ', q.label])) = _
    rw [jsTrim_space_pair hlws]
  rw [parseMcqBlock_eq hfil, hcor]
  rfl

theorem jsSplit_renderMCQ_aux {q0 : GenQuestion} {qs : List GenQuestion}
    (h0 : GoodQ q0) (h : ∀ q ∈ qs, GoodQ q) :
    jsSplit dQuestion (renderBlock q0 ++ renderMCQ qs) =
      renderBlock q0 :: qs.map renderBlock := by
  induction qs generalizing q0 with
  | nil =>
    rw [renderMCQ]
    simp only [List.foldr_nil, List.append_nil, List.map_nil]
    exact jsSplit_single (by decide) (not_infix_renderBlock h0)
  | cons q1 qs' ih =>
    have hsh : renderBlock q0 ++ renderMCQ (q1 :: qs') =
        renderBlock q0 ++ dQuestion ++ (renderBlock q1 ++ renderMCQ qs') := by
      rw [renderMCQ, List.foldr_cons, ← renderMCQ]
      simp [List.append_assoc]
    rw [hsh, jsSplit_append_pattern unbordered_dQuestion
      (not_infix_renderBlock h0)]
    rw [ih (h q1 (List.mem_cons_self _ _))
      (fun q hq => h q (List.mem_cons_of_mem _ hq))]
    rfl

theorem jsSplit_renderMCQ {qs : List GenQuestion} (h : ∀ q ∈ qs, GoodQ q) :
    jsSplit dQuestion (renderMCQ qs) = [] :: qs.map renderBlock := by
  cases qs with
  | nil => exact jsSplit_of_breakFirst_none rfl
  | cons q qs' =>
    have hsh : renderMCQ (q :: qs') =
        [] ++ dQuestion ++ (renderBlock q ++ renderMCQ qs') := by
      rw [renderMCQ, List.foldr_cons, ← renderMCQ]
      simp
    rw [hsh, jsSplit_append_pattern unbordered_dQuestion (by
      intro hinf
      have := List.eq_nil_of_infix_nil hinf
      exact absurd this (by decide))]
    rw [jsSplit_renderMCQ_aux (h q (List.mem_cons_self _ _))
      (fun x hx => h x (List.mem_cons_of_mem _ hx))]
    rfl

theorem jsTrim_renderBlock_ne_nil {q : GenQuestion} (hq : GoodQ q) :
    jsTrim (renderBlock q) ≠ [] := by
  obtain ⟨c, hcm, hcw⟩ := exists_not_ws_of_jsTrim_ne_nil hq.1.1
  exact jsTrim_ne_nil_of_mem
    (by rw [renderBlock]; exact List.mem_append_left _ hcm) hcw

theorem exMapM_map_ok {f : β → Except Unit γ} {g : α → β} {h : α → γ}
    {l : List α} (hok : ∀ x ∈ l, f (g x) = .ok (h x)) :
    exMapM f (l.map g) = .ok (l.map h) := by
  induction l with
  | nil => rfl
  | cons x xs ih =>
    rw [List.map_cons, exMapM, hok x (List.mem_cons_self _ _),
      ih fun y hy => hok y (List.mem_cons_of_mem _ hy), List.map_cons]

/-- C7: for every well-formed MCQ text of N questions in the prompt-contract
format, extraction succeeds with exactly N records in original order, each
with exactly 4 options and a `correct` label among A, B, C, D. -/
theorem claim_C7_wellformed_roundtrip (qs : List GenQuestion)
    (h : ∀ q ∈ qs, GoodQ q) :
    extractMCQ (renderMCQ qs) = .ok (qs.map expectedRecord) ∧
    (qs.map expectedRecord).length = qs.length ∧
    (∀ r ∈ qs.map expectedRecord, r.options.length = 4 ∧
      ∃ c, r.correct = some [c] ∧ c ∈ ['A', 'B', 'C', 'D']) := by
  refine ⟨?_, by simp, ?_⟩
  · rw [extractMCQ, jsSplit_renderMCQ h]
    have hfil : (([] : List Char) :: qs.map renderBlock).filter
        (fun b => !(jsTrim b).isEmpty) = qs.map renderBlock := by
      rw [List.filter_cons]
      rw [if_neg (by decide)]
      apply List.filter_eq_self.mpr
      intro b hb
      obtain ⟨q, hqm, rfl⟩ := List.mem_map.mp hb
      simpa using jsTrim_renderBlock_ne_nil (h q hqm)
    rw [hfil]
    exact exMapM_map_ok fun q hq => parseMcqBlock_renderBlock (h q hq)
  · intro r hr
    obtain ⟨q, hqm, rfl⟩ := List.mem_map.mp hr
    exact ⟨rfl, q.label, rfl, (h q hqm).2.2.2.2.2⟩

/-- Witness for C7: a concrete well-formed two-question text extracts to
exactly two fully populated records. -/
theorem claim_C7_witness :
    extractMCQ (renderMCQ
      [⟨("What is 1+1?").toList, ("A) 1").toList, ("B) 2").toList,
        ("C) 3").toList, ("D) 4").toList, 'B'⟩,
       ⟨("Pick one").toList, ("A) x").toList, ("B) y").toList,
        ("C) z").toList, ("D) w").toList, 'D'⟩]) =
      .ok ([⟨("What is 1+1?").toList, ("A) 1").toList, ("B) 2").toList,
        ("C) 3").toList, ("D) 4").toList, 'B'⟩,
       ⟨("Pick one").toList, ("A) x").toList, ("B) y").toList,
        ("C) z").toList, ("D) w").toList, 'D'⟩].map expectedRecord) :=
  (claim_C7_wellformed_roundtrip _ (by decide)).1

/-- Witness for the amended C3: the line `"Correct: A: because"` yields the
label `"A"`. -/
theorem claim_C3_witness :
    correctOfLines [dCorrect ++ ((" A").toList ++ ':' :: (" because").toList)] =
      .ok (some (jsTrim ((" A").toList))) ∧
    jsTrim ((" A").toList) = ("A").toList :=
  ⟨claim_C3_label_between_colons.1 ((" A").toList) ((" because").toList)
    (by decide), by decide⟩

/-! ### Concept tagging (C4) -/

theorem mem_addSet {c w : List Char} {s : List (List Char)} :
    c ∈ addSet w s ↔ c ∈ s ∨ c = w := by
  rw [addSet]
  split
  · rename_i hw
    constructor
    · exact Or.inl
    · rintro (h | rfl)
      · exact h
      · exact hw
  · simp [List.mem_append]

theorem nodup_addSet {w : List Char} {s : List (List Char)} (hs : s.Nodup) :
    (addSet w s).Nodup := by
  rw [addSet]
  split
  · exact hs
  · rename_i hw
    simpa [List.nodup_append, hw] using hs

theorem mem_concepts_foldl (words : List (List Char)) :
    ∀ (acc : List (List Char)) (c : List Char),
      (c ∈ words.foldl
        (fun acc w => if w ∈ technicalTerms then addSet w acc else acc) acc ↔
      c ∈ acc ∨ (c ∈ technicalTerms ∧ c ∈ words)) := by
  induction words with
  | nil => intro acc c; simp
  | cons w ws ih =>
    intro acc c
    rw [List.foldl_cons, ih]
    by_cases hw : w ∈ technicalTerms
    · rw [if_pos hw]
      rw [mem_addSet]
      constructor
      · rintro ((h | rfl) | h)
        · exact Or.inl h
        · exact Or.inr ⟨hw, List.mem_cons_self _ _⟩
        · exact Or.inr ⟨h.1, List.mem_cons_of_mem _ h.2⟩
      · rintro (h | ⟨ht, hm⟩)
        · exact Or.inl (Or.inl h)
        · rcases List.mem_cons.mp hm with rfl | hm'
          · exact Or.inl (Or.inr rfl)
          · exact Or.inr ⟨ht, hm'⟩
    · rw [if_neg hw]
      constructor
      · rintro (h | h)
        · exact Or.inl h
        · exact Or.inr ⟨h.1, List.mem_cons_of_mem _ h.2⟩
      · rintro (h | ⟨ht, hm⟩)
        · exact Or.inl h
        · rcases List.mem_cons.mp hm with rfl | hm'
          · exact absurd ht hw
          · exact Or.inr ⟨ht, hm'⟩

theorem nodup_concepts_foldl (words : List (List Char)) :
    ∀ acc : List (List Char), acc.Nodup →
      (words.foldl
        (fun acc w => if w ∈ technicalTerms then addSet w acc else acc)
        acc).Nodup := by
  induction words with
  | nil => intro acc h; exact h
  | cons w ws ih =>
    intro acc h
    rw [List.foldl_cons]
    apply ih
    split
    · exact nodup_addSet h
    · exact h

/-- C4 fails on the code: `extractConcepts` splits on the single space
character only, so the vocabulary word `"array"`, separated from its
neighbours by a newline, is not found. -/
theorem claim_C4_counterexample :
    ("array").toList ∈ technicalTerms ∧
    extractConcepts (("use\narray now").toList) = [] := by
  constructor
  · decide
  · rfl

/-- C4 amended: `extractConcepts` lower-cases the text and splits it on the
single space character `' '` only (not on general whitespace); it returns
exactly the duplicate-free set of fixed-vocabulary terms that occur as
whole space-separated tokens, so a vocabulary word separated from its
neighbours only by a newline or tab is not found, and a vocabulary word
never matches as a substring of a longer token. -/
theorem claim_C4_space_tokens_only (q c : List Char) :
    (c ∈ extractConcepts q ↔
      c ∈ technicalTerms ∧ c ∈ jsSplit [' '] (q.map Char.toLower)) ∧
    (extractConcepts q).Nodup := by
  constructor
  · rw [extractConcepts, mem_concepts_foldl]
    simp
  · rw [extractConcepts]
    exact nodup_concepts_foldl _ _ List.nodup_nil

/-- Witness for C4: `"array"` is extracted from a question where it is a
whole space-separated token. -/
theorem claim_C4_witness :
    ("array").toList ∈ extractConcepts (("the array").toList) :=
  (claim_C4_space_tokens_only (("the array").toList)
    (("array").toList)).1.mpr ⟨by decide, by decide⟩

/-! ### Association-list lemmas -/

theorem alookup_cons_self {k : List Char} {v : β}
    {rest : List ((List Char) × β)} : alookup k ((k, v) :: rest) = some v := by
  rw [alookup]
  exact if_pos rfl

theorem alookup_cons_ne {k k' : List Char} {v : β}
    {rest : List ((List Char) × β)} (h : k ≠ k') :
    alookup k ((k', v) :: rest) = alookup k rest := by
  rw [alookup]
  exact if_neg h

theorem aupsert_cons_self {k : List Char} {f : β → β} {init v : β}
    {rest : List ((List Char) × β)} :
    aupsert k f init ((k, v) :: rest) = (k, f v) :: rest := by
  rw [aupsert]
  exact if_pos rfl

theorem aupsert_cons_ne {k k' : List Char} {f : β → β} {init v : β}
    {rest : List ((List Char) × β)} (h : k ≠ k') :
    aupsert k f init ((k', v) :: rest) = (k', v) :: aupsert k f init rest := by
  rw [aupsert]
  exact if_neg h

theorem aadjust_cons_self {k : List Char} {f : β → β} {v : β}
    {rest : List ((List Char) × β)} :
    aadjust k f ((k, v) :: rest) = (k, f v) :: rest := by
  rw [aadjust]
  exact if_pos rfl

theorem aadjust_cons_ne {k k' : List Char} {f : β → β} {v : β}
    {rest : List ((List Char) × β)} (h : k ≠ k') :
    aadjust k f ((k', v) :: rest) = (k', v) :: aadjust k f rest := by
  rw [aadjust]
  exact if_neg h

theorem alookup_eq_none_iff {k : List Char} {l : List ((List Char) × β)} :
    alookup k l = none ↔ k ∉ l.map Prod.fst := by
  induction l with
  | nil => exact ⟨fun _ => by simp, fun _ => rfl⟩
  | cons p rest ih =>
    obtain ⟨k', v⟩ := p
    rw [List.map_cons]
    by_cases hk : k = k'
    · subst hk
      rw [alookup_cons_self]
      constructor
      · intro h; exact Option.noConfusion h
      · intro h; exact absurd (List.mem_cons_self _ _) h
    · rw [alookup_cons_ne hk, ih]
      simp only [List.mem_cons]
      tauto

theorem alookup_append_of_none {k : List Char} {l l2 : List ((List Char) × β)}
    (h : alookup k l = none) : alookup k (l ++ l2) = alookup k l2 := by
  induction l with
  | nil => rfl
  | cons p rest ih =>
    obtain ⟨k', v⟩ := p
    by_cases hk : k = k'
    · subst hk
      rw [alookup_cons_self] at h
      exact Option.noConfusion h
    · rw [alookup_cons_ne hk] at h
      rw [List.cons_append, alookup_cons_ne hk]
      exact ih h

theorem alookup_append_of_some {k : List Char} {l l2 : List ((List Char) × β)}
    {v : β} (h : alookup k l = some v) : alookup k (l ++ l2) = some v := by
  induction l with
  | nil => exact Option.noConfusion h
  | cons p rest ih =>
    obtain ⟨k', v2⟩ := p
    by_cases hk : k = k'
    · subst hk
      rw [alookup_cons_self] at h
      rw [List.cons_append, alookup_cons_self]
      exact h
    · rw [alookup_cons_ne hk] at h
      rw [List.cons_append, alookup_cons_ne hk]
      exact ih h

theorem alookup_aensure_self {k : List Char} {init : β}
    {l : List ((List Char) × β)} :
    alookup k (aensure k init l) = some ((alookup k l).getD init) := by
  rw [aensure]
  cases hl : alookup k l with
  | some v =>
    rw [if_pos (show (some v).isSome = true from rfl)]
    exact hl
  | none =>
    rw [if_neg (show ¬ (none : Option β).isSome = true by simp),
      alookup_append_of_none hl, alookup_cons_self]
    rfl

theorem alookup_aensure_ne {k k' : List Char} {init : β}
    {l : List ((List Char) × β)} (h : k' ≠ k) :
    alookup k' (aensure k init l) = alookup k' l := by
  rw [aensure]
  split
  · rfl
  · cases hl : alookup k' l with
    | some v => rw [alookup_append_of_some hl]
    | none =>
      rw [alookup_append_of_none hl, alookup_cons_ne h]
      rfl

theorem alookup_aadjust_self {k : List Char} {f : β → β}
    {l : List ((List Char) × β)} :
    alookup k (aadjust k f l) = (alookup k l).map f := by
  induction l with
  | nil => rfl
  | cons p rest ih =>
    obtain ⟨k', v⟩ := p
    by_cases hk : k = k'
    · subst hk
      rw [aadjust_cons_self, alookup_cons_self, alookup_cons_self]
      rfl
    · rw [aadjust_cons_ne hk, alookup_cons_ne hk, alookup_cons_ne hk, ih]

theorem alookup_aadjust_ne {k k' : List Char} {f : β → β}
    {l : List ((List Char) × β)} (h : k' ≠ k) :
    alookup k' (aadjust k f l) = alookup k' l := by
  induction l with
  | nil => rfl
  | cons p rest ih =>
    obtain ⟨k2, v⟩ := p
    by_cases hk : k = k2
    · subst hk
      rw [aadjust_cons_self, alookup_cons_ne h, alookup_cons_ne h]
    · rw [aadjust_cons_ne hk]
      by_cases hk2 : k' = k2
      · subst hk2
        rw [alookup_cons_self, alookup_cons_self]
      · rw [alookup_cons_ne hk2, alookup_cons_ne hk2, ih]

theorem alookup_aupsert_self {k : List Char} {f : β → β} {init : β}
    {l : List ((List Char) × β)} :
    alookup k (aupsert k f init l) = some (f ((alookup k l).getD init)) := by
  induction l with
  | nil =>
    rw [aupsert, alookup_cons_self]
    rfl
  | cons p rest ih =>
    obtain ⟨k', v⟩ := p
    by_cases hk : k = k'
    · subst hk
      rw [aupsert_cons_self, alookup_cons_self, alookup_cons_self]
      rfl
    · rw [aupsert_cons_ne hk, alookup_cons_ne hk, alookup_cons_ne hk, ih]

theorem alookup_aupsert_ne {k k' : List Char} {f : β → β} {init : β}
    {l : List ((List Char) × β)} (h : k' ≠ k) :
    alookup k' (aupsert k f init l) = alookup k' l := by
  induction l with
  | nil =>
    rw [aupsert, alookup_cons_ne h]
  | cons p rest ih =>
    obtain ⟨k2, v⟩ := p
    by_cases hk : k = k2
    · subst hk
      rw [aupsert_cons_self, alookup_cons_ne h, alookup_cons_ne h]
    · rw [aupsert_cons_ne hk]
      by_cases hk2 : k' = k2
      · subst hk2
        rw [alookup_cons_self, alookup_cons_self]
      · rw [alookup_cons_ne hk2, alookup_cons_ne hk2, ih]

theorem aadjust_aensure_eq_aupsert {k : List Char} {f : β → β} {init : β}
    {l : List ((List Char) × β)} :
    aadjust k f (aensure k init l) = aupsert k f init l := by
  induction l with
  | nil =>
    rw [aensure]
    rw [if_neg (show ¬ (alookup k ([] : List ((List Char) × β))).isSome = true
      by rw [alookup]; simp)]
    rw [List.nil_append, aadjust_cons_self, aupsert]
  | cons p rest ih =>
    obtain ⟨k', v⟩ := p
    by_cases hk : k = k'
    · subst hk
      rw [aensure, if_pos (by rw [alookup_cons_self]; rfl),
        aadjust_cons_self, aupsert_cons_self]
    · have hen : aensure k init ((k', v) :: rest) =
          (k', v) :: aensure k init rest := by
        rw [aensure, aensure, alookup_cons_ne hk]
        split
        · rfl
        · rw [List.cons_append]
      rw [hen, aadjust_cons_ne hk, aupsert_cons_ne hk, ih]

theorem forall_snd_aupsert {P : β → Prop} {k : List Char} {f : β → β}
    {init : β} {l : List ((List Char) × β)} (hl : ∀ p ∈ l, P p.2)
    (hf : ∀ v, P v → P (f v)) (hinit : P (f init)) :
    ∀ p ∈ aupsert k f init l, P p.2 := by
  induction l with
  | nil =>
    intro p hp
    rw [aupsert] at hp
    rw [List.mem_singleton.mp hp]
    exact hinit
  | cons p0 rest ih =>
    obtain ⟨k', v⟩ := p0
    intro p hp
    by_cases hk : k = k'
    · subst hk
      rw [aupsert_cons_self] at hp
      rcases List.mem_cons.mp hp with rfl | hp'
      · exact hf v (hl (k, v) (List.mem_cons_self _ _))
      · exact hl p (List.mem_cons_of_mem _ hp')
    · rw [aupsert_cons_ne hk] at hp
      rcases List.mem_cons.mp hp with rfl | hp'
      · exact hl (k', v) (List.mem_cons_self _ _)
      · exact ih (fun p2 hp2 => hl p2 (List.mem_cons_of_mem _ hp2)) p hp'

theorem forall_snd_aadjust {P : β → Prop} {k : List Char} {f : β → β}
    {l : List ((List Char) × β)} (hl : ∀ p ∈ l, P p.2)
    (hf : ∀ v, P v → P (f v)) : ∀ p ∈ aadjust k f l, P p.2 := by
  induction l with
  | nil => intro p hp; rw [aadjust] at hp; exact absurd hp (List.not_mem_nil p)
  | cons p0 rest ih =>
    obtain ⟨k', v⟩ := p0
    intro p hp
    by_cases hk : k = k'
    · subst hk
      rw [aadjust_cons_self] at hp
      rcases List.mem_cons.mp hp with rfl | hp'
      · exact hf v (hl (k, v) (List.mem_cons_self _ _))
      · exact hl p (List.mem_cons_of_mem _ hp')
    · rw [aadjust_cons_ne hk] at hp
      rcases List.mem_cons.mp hp with rfl | hp'
      · exact hl (k', v) (List.mem_cons_self _ _)
      · exact ih (fun p2 hp2 => hl p2 (List.mem_cons_of_mem _ hp2)) p hp'

theorem mem_keys_aupsert {x k : List Char} {f : β → β} {init : β}
    {l : List ((List Char) × β)} :
    x ∈ (aupsert k f init l).map Prod.fst ↔ x ∈ l.map Prod.fst ∨ x = k := by
  induction l with
  | nil =>
    rw [aupsert]
    simp only [List.map_cons, List.map_nil, List.mem_singleton,
      List.not_mem_nil, false_or]
  | cons p rest ih =>
    obtain ⟨k', v⟩ := p
    by_cases hk : k = k'
    · subst hk
      rw [aupsert_cons_self]
      simp only [List.map_cons, List.mem_cons]
      tauto
    · rw [aupsert_cons_ne hk]
      simp only [List.map_cons, List.mem_cons, ih]
      tauto

theorem nodup_keys_aupsert {k : List Char} {f : β → β} {init : β}
    {l : List ((List Char) × β)} (h : (l.map Prod.fst).Nodup) :
    ((aupsert k f init l).map Prod.fst).Nodup := by
  induction l with
  | nil =>
    rw [aupsert]
    simp only [List.map_cons, List.map_nil]
    exact List.nodup_singleton _
  | cons p rest ih =>
    obtain ⟨k', v⟩ := p
    simp only [List.map_cons, List.nodup_cons] at h
    by_cases hk : k = k'
    · subst hk
      rw [aupsert_cons_self]
      simp only [List.map_cons, List.nodup_cons]
      exact h
    · rw [aupsert_cons_ne hk]
      simp only [List.map_cons, List.nodup_cons]
      refine ⟨?_, ih h.2⟩
      rw [mem_keys_aupsert]
      rintro (hm | rfl)
      · exact h.1 hm
      · exact hk rfl

theorem isSome_alookup_aupsert {k c : List Char} {f : β → β} {init : β}
    {l : List ((List Char) × β)} (h : (alookup c l).isSome = true) :
    (alookup c (aupsert k f init l)).isSome = true := by
  by_cases hc : c = k
  · subst hc
    rw [alookup_aupsert_self]
    rfl
  · rw [alookup_aupsert_ne hc]
    exact h

theorem foldl_preserve {σ : Type} {Inv : σ → Prop} {step : σ → α → σ}
    (h : ∀ st x, Inv st → Inv (step st x)) :
    ∀ (l : List α) (st : σ), Inv st → Inv (l.foldl step st) := by
  intro l
  induction l with
  | nil => intro st hst; exact hst
  | cons x xs ih =>
    intro st hst
    rw [List.foldl_cons]
    exact ih _ (h st x hst)

/-! ### Stage lemmas for `trackAnswer` -/

theorem bumpTopic_topicPerformance {t : List Char} {i : Nat} {s : AgentState} :
    (bumpTopic t i s).topicPerformance =
      aupsert t
        (fun ts => { ts with total := ts.total + 1,
                             correct := ts.correct + i })
        initTopicStats s.topicPerformance :=
  aadjust_aensure_eq_aupsert

theorem recordTime_weakAreas {t : List Char} {tt : Option ℚ} {s : AgentState} :
    (recordTime t tt s).weakAreas = s.weakAreas := by
  rw [recordTime]
  split <;> rfl

theorem recordTime_conceptMastery {t : List Char} {tt : Option ℚ}
    {s : AgentState} : (recordTime t tt s).conceptMastery = s.conceptMastery := by
  rw [recordTime]
  split <;> rfl

theorem conceptStep_weakAreas {t c : List Char} {i : Nat} {st : AgentState} :
    (conceptStep t i st c).weakAreas = st.weakAreas := rfl

theorem conceptStep_conceptMastery {t c : List Char} {i : Nat}
    {st : AgentState} :
    (conceptStep t i st c).conceptMastery =
      aupsert c
        (fun cs => { cs with total := cs.total + 1,
                             correct := cs.correct + i })
        ⟨0, 0⟩ st.conceptMastery := rfl

theorem conceptStep_timeSpent {t c : List Char} {i : Nat} {st : AgentState} :
    (conceptStep t i st c).timeSpent = st.timeSpent := rfl

theorem foldl_conceptStep_weakAreas {t : List Char} {i : Nat} :
    ∀ (l : List (List Char)) (st : AgentState),
      (l.foldl (conceptStep t i) st).weakAreas = st.weakAreas := by
  intro l
  induction l with
  | nil => intro st; rfl
  | cons c l' ih => intro st; rw [List.foldl_cons, ih, conceptStep_weakAreas]

theorem weakStep_eq_none {t c : List Char} {st : AgentState}
    (h : alookup c st.conceptMastery = none) : weakStep t st c = st := by
  rw [weakStep, h]

theorem weakStep_eq_some {t c : List Char} {st : AgentState}
    {cs : ConceptStats} (h : alookup c st.conceptMastery = some cs) :
    weakStep t st c =
      if masteryLt cs (7 / 10) = true then
        { st with weakAreas := addSet c st.weakAreas,
                  topicPerformance :=
                    (aadjust t
                      (fun ts => { ts with weakAreas := addSet c ts.weakAreas })
                      st.topicPerformance) }
      else st := by
  rw [weakStep, h]

theorem weakStep_conceptMastery {t c : List Char} {st : AgentState} :
    (weakStep t st c).conceptMastery = st.conceptMastery := by
  cases h : alookup c st.conceptMastery with
  | none => rw [weakStep_eq_none h]
  | some cs => rw [weakStep_eq_some h]; split <;> rfl

theorem weakStep_timeSpent {t c : List Char} {st : AgentState} :
    (weakStep t st c).timeSpent = st.timeSpent := by
  cases h : alookup c st.conceptMastery with
  | none => rw [weakStep_eq_none h]
  | some cs => rw [weakStep_eq_some h]; split <;> rfl

theorem weakStep_mem_weakAreas {t c x : List Char} {st : AgentState} :
    x ∈ (weakStep t st c).weakAreas ↔
      x ∈ st.weakAreas ∨
        (x = c ∧ ∃ cs, alookup c st.conceptMastery = some cs ∧
          masteryLt cs (7 / 10) = true) := by
  cases h : alookup c st.conceptMastery with
  | none => rw [weakStep_eq_none h]; simp
  | some cs =>
    rw [weakStep_eq_some h]
    cases hml : masteryLt cs (7 / 10) with
    | false =>
      rw [if_neg (show ¬ false = true from Bool.false_ne_true)]
      simp [hml]
    | true =>
      rw [if_pos (show true = true from rfl)]
      show x ∈ addSet c st.weakAreas ↔ _
      rw [mem_addSet]
      constructor
      · rintro (hm | rfl)
        · exact Or.inl hm
        · exact Or.inr ⟨rfl, cs, rfl, hml⟩
      · rintro (hm | ⟨rfl, _⟩)
        · exact Or.inl hm
        · exact Or.inr rfl

theorem weakStep_topicPerformance_ne {t t' c : List Char} {st : AgentState}
    (h : t' ≠ t) :
    alookup t' (weakStep t st c).topicPerformance =
      alookup t' st.topicPerformance := by
  cases hcm : alookup c st.conceptMastery with
  | none => rw [weakStep_eq_none hcm]
  | some cs =>
    rw [weakStep_eq_some hcm]
    split
    · show alookup t' (aadjust t _ st.topicPerformance) = _
      exact alookup_aadjust_ne h
    · rfl

theorem weakStep_topic_isSome {t c : List Char} {st : AgentState} :
    (alookup t (weakStep t st c).topicPerformance).isSome =
      (alookup t st.topicPerformance).isSome := by
  cases hcm : alookup c st.conceptMastery with
  | none => rw [weakStep_eq_none hcm]
  | some cs =>
    rw [weakStep_eq_some hcm]
    split
    · show (alookup t (aadjust t _ st.topicPerformance)).isSome = _
      rw [alookup_aadjust_self]
      cases alookup t st.topicPerformance <;> rfl
    · rfl

theorem weakStep_topic_mem {t c x : List Char} {st : AgentState} :
    (∃ ts, alookup t (weakStep t st c).topicPerformance = some ts ∧
      x ∈ ts.weakAreas) ↔
    (∃ ts, alookup t st.topicPerformance = some ts ∧ x ∈ ts.weakAreas) ∨
      ((alookup t st.topicPerformance).isSome = true ∧ x = c ∧
        ∃ cs, alookup c st.conceptMastery = some cs ∧
          masteryLt cs (7 / 10) = true) := by
  cases h : alookup c st.conceptMastery with
  | none => rw [weakStep_eq_none h]; simp
  | some cs =>
    rw [weakStep_eq_some h]
    cases hml : masteryLt cs (7 / 10) with
    | false =>
      rw [if_neg (show ¬ false = true from Bool.false_ne_true)]
      simp [hml]
    | true =>
      rw [if_pos (show true = true from rfl)]
      show (∃ ts, alookup t (aadjust t _ st.topicPerformance) = some ts ∧
        x ∈ ts.weakAreas) ↔ _
      rw [alookup_aadjust_self]
      cases ht : alookup t st.topicPerformance with
      | none => simp
      | some ts =>
        constructor
        · rintro ⟨ts', hts', hmem⟩
          have hts2 : ts' = { ts with weakAreas := addSet c ts.weakAreas } :=
            (Option.some.inj hts').symm
          subst hts2
          rcases mem_addSet.mp hmem with hm | rfl
          · exact Or.inl ⟨ts, rfl, hm⟩
          · exact Or.inr ⟨rfl, rfl, cs, rfl, hml⟩
        · rintro (⟨ts', hts', hmem⟩ | ⟨-, rfl, -⟩)
          · obtain rfl : ts = ts' := Option.some.inj hts'
            exact ⟨_, rfl, mem_addSet.mpr (Or.inl hmem)⟩
          · exact ⟨_, rfl, mem_addSet.mpr (Or.inr rfl)⟩

theorem foldl_weakStep_conceptMastery {t : List Char} :
    ∀ (l : List (List Char)) (st : AgentState),
      (l.foldl (weakStep t) st).conceptMastery = st.conceptMastery := by
  intro l
  induction l with
  | nil => intro st; rfl
  | cons c l' ih => intro st; rw [List.foldl_cons, ih, weakStep_conceptMastery]

theorem foldl_weakStep_mem_weakAreas {t : List Char} :
    ∀ (l : List (List Char)) (st : AgentState) (x : List Char),
      (x ∈ (l.foldl (weakStep t) st).weakAreas ↔
        x ∈ st.weakAreas ∨
          (x ∈ l ∧ ∃ cs, alookup x st.conceptMastery = some cs ∧
            masteryLt cs (7 / 10) = true)) := by
  intro l
  induction l with
  | nil => intro st x; simp
  | cons c l' ih =>
    intro st x
    rw [List.foldl_cons, ih, weakStep_mem_weakAreas, weakStep_conceptMastery]
    constructor
    · rintro ((hm | ⟨rfl, hc⟩) | ⟨hm, hc⟩)
      · exact Or.inl hm
      · exact Or.inr ⟨List.mem_cons_self _ _, hc⟩
      · exact Or.inr ⟨List.mem_cons_of_mem _ hm, hc⟩
    · rintro (hm | ⟨hm, hc⟩)
      · exact Or.inl (Or.inl hm)
      · rcases List.mem_cons.mp hm with rfl | hm'
        · exact Or.inl (Or.inr ⟨rfl, hc⟩)
        · exact Or.inr ⟨hm', hc⟩

theorem foldl_weakStep_topicPerformance_ne {t t' : List Char} (h : t' ≠ t) :
    ∀ (l : List (List Char)) (st : AgentState),
      alookup t' (l.foldl (weakStep t) st).topicPerformance =
        alookup t' st.topicPerformance := by
  intro l
  induction l with
  | nil => intro st; rfl
  | cons c l' ih =>
    intro st
    rw [List.foldl_cons, ih, weakStep_topicPerformance_ne h]

theorem foldl_weakStep_topic_mem {t : List Char} :
    ∀ (l : List (List Char)) (st : AgentState) (x : List Char),
      ((∃ ts, alookup t (l.foldl (weakStep t) st).topicPerformance = some ts ∧
          x ∈ ts.weakAreas) ↔
        (∃ ts, alookup t st.topicPerformance = some ts ∧ x ∈ ts.weakAreas) ∨
          ((alookup t st.topicPerformance).isSome = true ∧ x ∈ l ∧
            ∃ cs, alookup x st.conceptMastery = some cs ∧
              masteryLt cs (7 / 10) = true)) := by
  intro l
  induction l with
  | nil => intro st x; simp
  | cons c l' ih =>
    intro st x
    rw [List.foldl_cons, ih, weakStep_topic_mem, weakStep_conceptMastery,
      weakStep_topic_isSome]
    constructor
    · rintro ((hm | ⟨hsome, rfl, hc⟩) | ⟨hsome, hm, hc⟩)
      · exact Or.inl hm
      · exact Or.inr ⟨hsome, List.mem_cons_self _ _, hc⟩
      · exact Or.inr ⟨hsome, List.mem_cons_of_mem _ hm, hc⟩
    · rintro (hm | ⟨hsome, hm, hc⟩)
      · exact Or.inl (Or.inl hm)
      · rcases List.mem_cons.mp hm with rfl | hm'
        · exact Or.inl (Or.inr ⟨hsome, rfl, hc⟩)
        · exact Or.inr ⟨hsome, hm', hc⟩

theorem pushHistory_weakAreas {a b : List Char} {ic : Bool} {ev : List Char}
    {tt : Option ℚ} {cs : List (List Char)} {s : AgentState} :
    (pushHistory a b ic ev tt cs s).weakAreas = s.weakAreas := rfl

theorem pushHistory_topicPerformance {a b : List Char} {ic : Bool}
    {ev : List Char} {tt : Option ℚ} {cs : List (List Char)} {s : AgentState} :
    (pushHistory a b ic ev tt cs s).topicPerformance = s.topicPerformance := rfl

theorem pushHistory_conceptMastery {a b : List Char} {ic : Bool}
    {ev : List Char} {tt : Option ℚ} {cs : List (List Char)} {s : AgentState} :
    (pushHistory a b ic ev tt cs s).conceptMastery = s.conceptMastery := rfl

theorem exists_mem_weakAreas_congr {o1 o2 : Option TopicStats}
    (h : o1.map TopicStats.weakAreas = o2.map TopicStats.weakAreas)
    (x : List Char) :
    (∃ ts, o1 = some ts ∧ x ∈ ts.weakAreas) ↔
      (∃ ts, o2 = some ts ∧ x ∈ ts.weakAreas) := by
  cases o1 with
  | none =>
    cases o2 with
    | none => simp
    | some b => exact absurd h (by simp)
  | some a =>
    cases o2 with
    | none => exact absurd h (by simp)
    | some b =>
      have hab : a.weakAreas = b.weakAreas := by simpa using h
      constructor
      · rintro ⟨ts, hts, hm⟩
        have hts2 : a = ts := Option.some.inj hts
        subst hts2
        exact ⟨b, rfl, hab ▸ hm⟩
      · rintro ⟨ts, hts, hm⟩
        have hts2 : b = ts := Option.some.inj hts
        subst hts2
        exact ⟨a, rfl, hab.symm ▸ hm⟩

theorem conceptStep_topic_weakAreas_view {t t' c : List Char} {i : Nat}
    {st : AgentState} :
    (alookup t' (conceptStep t i st c).topicPerformance).map
        TopicStats.weakAreas =
      (alookup t' st.topicPerformance).map TopicStats.weakAreas := by
  by_cases ht : t' = t
  · subst ht
    show (alookup t' (aadjust t' _ _)).map _ = _
    rw [alookup_aadjust_self]
    cases alookup t' st.topicPerformance <;> rfl
  · show (alookup t' (aadjust t _ _)).map _ = _
    rw [alookup_aadjust_ne ht]

theorem conceptStep_topic_isSome_view {t t' c : List Char} {i : Nat}
    {st : AgentState} :
    (alookup t' (conceptStep t i st c).topicPerformance).isSome =
      (alookup t' st.topicPerformance).isSome := by
  by_cases ht : t' = t
  · subst ht
    show (alookup t' (aadjust t' _ _)).isSome = _
    rw [alookup_aadjust_self]
    cases alookup t' st.topicPerformance <;> rfl
  · show (alookup t' (aadjust t _ _)).isSome = _
    rw [alookup_aadjust_ne ht]

theorem foldl_conceptStep_topic_weakAreas_view {t t' : List Char} {i : Nat} :
    ∀ (l : List (List Char)) (st : AgentState),
      (alookup t' (l.foldl (conceptStep t i) st).topicPerformance).map
          TopicStats.weakAreas =
        (alookup t' st.topicPerformance).map TopicStats.weakAreas := by
  intro l
  induction l with
  | nil => intro st; rfl
  | cons c l' ih =>
    intro st
    rw [List.foldl_cons, ih, conceptStep_topic_weakAreas_view]

theorem foldl_conceptStep_topic_isSome_view {t t' : List Char} {i : Nat} :
    ∀ (l : List (List Char)) (st : AgentState),
      (alookup t' (l.foldl (conceptStep t i) st).topicPerformance).isSome =
        (alookup t' st.topicPerformance).isSome := by
  intro l
  induction l with
  | nil => intro st; rfl
  | cons c l' ih =>
    intro st
    rw [List.foldl_cons, ih, conceptStep_topic_isSome_view]

theorem recordTime_topic_weakAreas_view {t t' : List Char} {tt : Option ℚ}
    {s : AgentState} :
    (alookup t' (recordTime t tt s).topicPerformance).map
        TopicStats.weakAreas =
      (alookup t' s.topicPerformance).map TopicStats.weakAreas := by
  rw [recordTime]
  split
  · by_cases ht : t' = t
    · subst ht
      show (alookup t' (aadjust t' _ _)).map _ = _
      rw [alookup_aadjust_self]
      cases alookup t' s.topicPerformance <;> rfl
    · show (alookup t' (aadjust t _ _)).map _ = _
      rw [alookup_aadjust_ne ht]
  · rfl

theorem recordTime_topic_isSome_view {t t' : List Char} {tt : Option ℚ}
    {s : AgentState} :
    (alookup t' (recordTime t tt s).topicPerformance).isSome =
      (alookup t' s.topicPerformance).isSome := by
  rw [recordTime]
  split
  · by_cases ht : t' = t
    · subst ht
      show (alookup t' (aadjust t' _ _)).isSome = _
      rw [alookup_aadjust_self]
      cases alookup t' s.topicPerformance <;> rfl
    · show (alookup t' (aadjust t _ _)).isSome = _
      rw [alookup_aadjust_ne ht]
  · rfl

theorem bumpTopic_topic_mem (t t' x : List Char) (i : Nat) (s : AgentState) :
    (∃ ts, alookup t' (bumpTopic t i s).topicPerformance = some ts ∧
      x ∈ ts.weakAreas) ↔
    (∃ ts, alookup t' s.topicPerformance = some ts ∧ x ∈ ts.weakAreas) := by
  by_cases ht : t' = t
  · subst ht
    rw [bumpTopic_topicPerformance, alookup_aupsert_self]
    cases ho : alookup t' s.topicPerformance with
    | none =>
      simp only [Option.getD_none]
      constructor
      · rintro ⟨ts, hts, hm⟩
        have h2 : _ = ts := Option.some.inj hts
        rw [← h2] at hm
        exact absurd hm (List.not_mem_nil x)
      · rintro ⟨ts, hts, _⟩
        exact Option.noConfusion hts
    | some v =>
      simp only [Option.getD_some]
      constructor
      · rintro ⟨ts, hts, hm⟩
        have h2 : _ = ts := Option.some.inj hts
        rw [← h2] at hm
        exact ⟨v, rfl, hm⟩
      · rintro ⟨ts, hts, hm⟩
        have h2 : v = ts := Option.some.inj hts
        subst h2
        exact ⟨_, rfl, hm⟩
  · rw [bumpTopic_topicPerformance, alookup_aupsert_ne ht]

theorem bumpTopic_topic_isSome {t : List Char} {i : Nat} {s : AgentState} :
    (alookup t (bumpTopic t i s).topicPerformance).isSome = true := by
  rw [bumpTopic_topicPerformance, alookup_aupsert_self]
  rfl

theorem trackCore_weakAreas {t q : List Char} {ic : Bool} {ev : List Char}
    {tt : Option ℚ} {s : AgentState} :
    (trackCore t q ic ev tt s).weakAreas = s.weakAreas := by
  rw [trackCore, pushHistory_weakAreas, foldl_conceptStep_weakAreas,
    recordTime_weakAreas]
  rfl

theorem trackCore_topic_mem {t q t' x : List Char} {ic : Bool}
    {ev : List Char} {tt : Option ℚ} {s : AgentState} :
    (∃ ts, alookup t' (trackCore t q ic ev tt s).topicPerformance = some ts ∧
      x ∈ ts.weakAreas) ↔
    (∃ ts, alookup t' s.topicPerformance = some ts ∧ x ∈ ts.weakAreas) := by
  rw [trackCore, pushHistory_topicPerformance]
  refine Iff.trans (exists_mem_weakAreas_congr ?_ x)
    (bumpTopic_topic_mem t t' x (if ic = true then 1 else 0)
      (bumpCounters (if ic = true then 1 else 0) s))
  rw [foldl_conceptStep_topic_weakAreas_view, recordTime_topic_weakAreas_view]

theorem trackCore_topic_isSome {t q : List Char} {ic : Bool} {ev : List Char}
    {tt : Option ℚ} {s : AgentState} :
    (alookup t (trackCore t q ic ev tt s).topicPerformance).isSome = true := by
  rw [trackCore, pushHistory_topicPerformance,
    foldl_conceptStep_topic_isSome_view, recordTime_topic_isSome_view]
  exact bumpTopic_topic_isSome

theorem trackAnswer_eq_true {t q : List Char} {ic : Bool} {ev : List Char}
    {tt : Option ℚ} {s : AgentState} (h : ic = true) :
    trackAnswer t q ic ev tt s = trackCore t q ic ev tt s := by
  rw [trackAnswer, if_pos h]

theorem trackAnswer_eq_false {t q : List Char} {ic : Bool} {ev : List Char}
    {tt : Option ℚ} {s : AgentState} (h : ic = false) :
    trackAnswer t q ic ev tt s =
      (extractConcepts q).foldl (weakStep t) (trackCore t q ic ev tt s) := by
  rw [trackAnswer, if_neg (by rw [h]; exact Bool.false_ne_true)]

theorem trackAnswer_mem_weakAreas (t q : List Char) (ic : Bool)
    (ev : List Char) (tt : Option ℚ) (s : AgentState) (c : List Char) :
    c ∈ (trackAnswer t q ic ev tt s).weakAreas ↔
      c ∈ s.weakAreas ∨
        (ic = false ∧ c ∈ extractConcepts q ∧
          ∃ cs, alookup c (trackAnswer t q ic ev tt s).conceptMastery =
            some cs ∧ masteryLt cs (7 / 10) = true) := by
  cases ic with
  | true =>
    rw [trackAnswer_eq_true rfl, trackCore_weakAreas]
    simp
  | false =>
    rw [trackAnswer_eq_false rfl, foldl_weakStep_mem_weakAreas,
      trackCore_weakAreas, foldl_weakStep_conceptMastery]
    simp

theorem trackAnswer_topic_mem_weakAreas (t q : List Char) (ic : Bool)
    (ev : List Char) (tt : Option ℚ) (s : AgentState) (c : List Char) :
    (∃ ts, alookup t (trackAnswer t q ic ev tt s).topicPerformance =
      some ts ∧ c ∈ ts.weakAreas) ↔
      (∃ ts, alookup t s.topicPerformance = some ts ∧ c ∈ ts.weakAreas) ∨
        (ic = false ∧ c ∈ extractConcepts q ∧
          ∃ cs, alookup c (trackAnswer t q ic ev tt s).conceptMastery =
            some cs ∧ masteryLt cs (7 / 10) = true) := by
  cases ic with
  | true =>
    rw [trackAnswer_eq_true rfl, trackCore_topic_mem]
    simp
  | false =>
    rw [trackAnswer_eq_false rfl, foldl_weakStep_topic_mem,
      trackCore_topic_mem, trackCore_topic_isSome,
      foldl_weakStep_conceptMastery]
    simp

theorem trackAnswer_topic_mem_preserved (t' : List Char) {t q : List Char}
    {ic : Bool} {ev : List Char} {tt : Option ℚ} {s : AgentState}
    {c : List Char}
    (h : ∃ ts, alookup t' s.topicPerformance = some ts ∧ c ∈ ts.weakAreas) :
    ∃ ts, alookup t' (trackAnswer t q ic ev tt s).topicPerformance =
      some ts ∧ c ∈ ts.weakAreas := by
  cases ic with
  | true =>
    rw [trackAnswer_eq_true rfl]
    exact trackCore_topic_mem.mpr h
  | false =>
    rw [trackAnswer_eq_false rfl]
    by_cases ht : t' = t
    · subst ht
      exact (foldl_weakStep_topic_mem _ _ _).mpr
        (Or.inl (trackCore_topic_mem.mpr h))
    · rw [foldl_weakStep_topicPerformance_ne ht]
      exact trackCore_topic_mem.mpr h

theorem applyCalls_weakAreas_mono :
    ∀ (calls : List Call) (s : AgentState) (c : List Char),
      c ∈ s.weakAreas → c ∈ (applyCalls calls s).weakAreas := by
  intro calls
  induction calls with
  | nil => intro s c h; exact h
  | cons cl calls' ih =>
    intro s c h
    rw [applyCalls, List.foldl_cons]
    refine ih _ c ?_
    exact (trackAnswer_mem_weakAreas _ _ _ _ _ _ _).mpr (Or.inl h)

theorem applyCalls_topic_mem_mono :
    ∀ (calls : List Call) (s : AgentState) (t c : List Char),
      (∃ ts, alookup t s.topicPerformance = some ts ∧ c ∈ ts.weakAreas) →
      ∃ ts, alookup t (applyCalls calls s).topicPerformance = some ts ∧
        c ∈ ts.weakAreas := by
  intro calls
  induction calls with
  | nil => intro s t c h; exact h
  | cons cl calls' ih =>
    intro s t c h
    rw [applyCalls, List.foldl_cons]
    exact ih _ t c (trackAnswer_topic_mem_preserved t h)

/-- C1: a concept enters the global weak-area set (and the topic's
weak-area set) during a `trackAnswer` call exactly when the answer was
incorrect, the concept is tagged from the question, and the concept's
global mastery ratio, computed after this call's counter increments, is
strictly below 0.70; and once a concept is in either weak-area set, no
later `trackAnswer` call removes it. -/
theorem claim_C1_weak_area_update :
    (∀ (t q : List Char) (ic : Bool) (ev : List Char) (tt : Option ℚ)
       (s : AgentState) (c : List Char),
      c ∈ (trackAnswer t q ic ev tt s).weakAreas ↔
        c ∈ s.weakAreas ∨
          (ic = false ∧ c ∈ extractConcepts q ∧
            ∃ cs, alookup c (trackAnswer t q ic ev tt s).conceptMastery =
              some cs ∧ masteryLt cs (7 / 10) = true)) ∧
    (∀ (t q : List Char) (ic : Bool) (ev : List Char) (tt : Option ℚ)
       (s : AgentState) (c : List Char),
      (∃ ts, alookup t (trackAnswer t q ic ev tt s).topicPerformance =
        some ts ∧ c ∈ ts.weakAreas) ↔
        (∃ ts, alookup t s.topicPerformance = some ts ∧ c ∈ ts.weakAreas) ∨
          (ic = false ∧ c ∈ extractConcepts q ∧
            ∃ cs, alookup c (trackAnswer t q ic ev tt s).conceptMastery =
              some cs ∧ masteryLt cs (7 / 10) = true)) ∧
    (∀ (calls : List Call) (s : AgentState) (c : List Char),
      c ∈ s.weakAreas → c ∈ (applyCalls calls s).weakAreas) ∧
    (∀ (calls : List Call) (s : AgentState) (t c : List Char),
      (∃ ts, alookup t s.topicPerformance = some ts ∧ c ∈ ts.weakAreas) →
      ∃ ts, alookup t (applyCalls calls s).topicPerformance = some ts ∧
        c ∈ ts.weakAreas) :=
  ⟨trackAnswer_mem_weakAreas, trackAnswer_topic_mem_weakAreas,
    applyCalls_weakAreas_mono, applyCalls_topic_mem_mono⟩

/-- Witness for C1: the concept `"array"`, made weak by one incorrect
answer, stays in the weak-area set after a later correct answer. -/
theorem claim_C1_witness :
    ("array").toList ∈
      (applyCalls [⟨("T").toList, ("the array").toList, true, [], none⟩]
        (applyCalls [⟨("T").toList, ("the array").toList, false, [], none⟩]
          initialState)).weakAreas :=
  claim_C1_weak_area_update.2.2.1 _ _ _ (by with_unfolding_all decide)

/-! ### C6: the `correct <= total` counter invariant -/

theorem bumpCounters_countersOK {i : Nat} {s : AgentState} (hi : i ≤ 1)
    (h : CountersOK s) : CountersOK (bumpCounters i s) := by
  obtain ⟨h1, h2, h3⟩ := h
  exact ⟨Nat.add_le_add h1 hi, h2, h3⟩

theorem bumpTopic_countersOK {t : List Char} {i : Nat} {s : AgentState}
    (hi : i ≤ 1) (h : CountersOK s) : CountersOK (bumpTopic t i s) := by
  obtain ⟨h1, h2, h3⟩ := h
  refine ⟨h1, ?_, h3⟩
  rw [bumpTopic_topicPerformance]
  refine forall_snd_aupsert
    (P := fun (ts : TopicStats) => ts.correct ≤ ts.total ∧
      ∀ q ∈ ts.conceptsTests, q.2.correct ≤ q.2.total) h2 ?_ ?_
  · rintro v ⟨hv1, hv2⟩
    exact ⟨Nat.add_le_add hv1 hi, hv2⟩
  · refine ⟨by simpa [initTopicStats] using hi, ?_⟩
    intro p hp
    exact absurd hp (List.not_mem_nil p)

theorem recordTime_countersOK {t : List Char} {tt : Option ℚ} {s : AgentState}
    (h : CountersOK s) : CountersOK (recordTime t tt s) := by
  obtain ⟨h1, h2, h3⟩ := h
  rw [recordTime]
  split
  · exact ⟨h1, forall_snd_aadjust
      (P := fun (ts : TopicStats) => ts.correct ≤ ts.total ∧
        ∀ q ∈ ts.conceptsTests, q.2.correct ≤ q.2.total)
      h2 (fun v hv => hv), h3⟩
  · exact ⟨h1, h2, h3⟩

theorem conceptStep_countersOK {t c : List Char} {i : Nat} {st : AgentState}
    (hi : i ≤ 1) (h : CountersOK st) : CountersOK (conceptStep t i st c) := by
  obtain ⟨h1, h2, h3⟩ := h
  refine ⟨h1, ?_, ?_⟩
  · refine forall_snd_aadjust
      (P := fun (ts : TopicStats) => ts.correct ≤ ts.total ∧
        ∀ q ∈ ts.conceptsTests, q.2.correct ≤ q.2.total) h2 ?_
    rintro v ⟨hv1, hv2⟩
    refine ⟨hv1, ?_⟩
    refine forall_snd_aupsert (P := fun (w : ConceptStats) => w.correct ≤ w.total) hv2 ?_ ?_
    · intro w hw
      exact Nat.add_le_add hw hi
    · simpa using hi
  · refine forall_snd_aupsert (P := fun (w : ConceptStats) => w.correct ≤ w.total) h3 ?_ ?_
    · intro w hw
      exact Nat.add_le_add hw hi
    · simpa using hi

theorem weakStep_countersOK {t c : List Char} {st : AgentState}
    (h : CountersOK st) : CountersOK (weakStep t st c) := by
  obtain ⟨h1, h2, h3⟩ := h
  cases hcm : alookup c st.conceptMastery with
  | none =>
    rw [weakStep_eq_none hcm]
    exact ⟨h1, h2, h3⟩
  | some cs =>
    rw [weakStep_eq_some hcm]
    split
    · exact ⟨h1, forall_snd_aadjust
        (P := fun (ts : TopicStats) => ts.correct ≤ ts.total ∧
          ∀ q ∈ ts.conceptsTests, q.2.correct ≤ q.2.total)
        h2 (fun v hv => hv), h3⟩
    · exact ⟨h1, h2, h3⟩

theorem pushHistory_countersOK {a b : List Char} {ic : Bool} {ev : List Char}
    {tt : Option ℚ} {cs : List (List Char)} {s : AgentState}
    (h : CountersOK s) : CountersOK (pushHistory a b ic ev tt cs s) := h

theorem trackCore_countersOK {t q : List Char} {ic : Bool} {ev : List Char}
    {tt : Option ℚ} {s : AgentState} (h : CountersOK s) :
    CountersOK (trackCore t q ic ev tt s) := by
  have hi : (if ic = true then 1 else 0 : Nat) ≤ 1 := by
    split
    · exact Nat.le_refl 1
    · exact Nat.zero_le 1
  rw [trackCore]
  exact pushHistory_countersOK
    (foldl_preserve (fun st x hst => conceptStep_countersOK hi hst) _ _
      (recordTime_countersOK (bumpTopic_countersOK hi
        (bumpCounters_countersOK hi h))))

theorem trackAnswer_countersOK {t q : List Char} {ic : Bool} {ev : List Char}
    {tt : Option ℚ} {s : AgentState} (h : CountersOK s) :
    CountersOK (trackAnswer t q ic ev tt s) := by
  cases ic with
  | true =>
    rw [trackAnswer_eq_true rfl]
    exact trackCore_countersOK h
  | false =>
    rw [trackAnswer_eq_false rfl]
    exact foldl_preserve (fun st x hst => weakStep_countersOK hst) _ _
      (trackCore_countersOK h)

theorem initialState_countersOK : CountersOK initialState := by
  refine ⟨Nat.le_refl 0, ?_, ?_⟩
  · intro p hp
    exact absurd hp (List.not_mem_nil p)
  · intro p hp
    exact absurd hp (List.not_mem_nil p)

/-- C6: after every finite sequence of `trackAnswer` calls on a fresh
agent, `correctCount ≤ totalCount` holds for the global counters, for
every topic's counters, for every global concept's counters and for every
per-topic concept entry. -/
theorem claim_C6_counters_le (calls : List Call) :
    CountersOK (applyCalls calls initialState) :=
  foldl_preserve (fun _ _ hst => trackAnswer_countersOK hst) calls
    initialState initialState_countersOK

/-- Witness for C6 at a concrete call sequence. -/
theorem claim_C6_witness :
    (applyCalls [⟨("T").toList, ("the array").toList, true, [], none⟩]
      initialState).correctAnswers ≤
    (applyCalls [⟨("T").toList, ("the array").toList, true, [], none⟩]
      initialState).totalQuestions :=
  (claim_C6_counters_le
    [⟨("T").toList, ("the array").toList, true, [], none⟩]).1

/-! ### C9: weak-area concepts always have a tracked mastery entry -/

theorem alookup_mem {k : List Char} {v : β} :
    ∀ {l : List ((List Char) × β)}, alookup k l = some v → (k, v) ∈ l := by
  intro l
  induction l with
  | nil =>
    intro h
    have h2 : (none : Option β) = some v := h
    exact Option.noConfusion h2
  | cons p rest ih =>
    obtain ⟨k', w⟩ := p
    intro h
    by_cases hk : k = k'
    · subst hk
      rw [alookup_cons_self] at h
      obtain rfl : w = v := Option.some.inj h
      exact List.mem_cons_self _ _
    · rw [alookup_cons_ne hk] at h
      exact List.mem_cons_of_mem _ (ih h)

theorem bumpCounters_stateInv {i : Nat} {s : AgentState} (h : StateInv s) :
    StateInv (bumpCounters i s) := h

theorem bumpTopic_stateInv {t : List Char} {i : Nat} {s : AgentState}
    (h : StateInv s) : StateInv (bumpTopic t i s) := by
  obtain ⟨h1, h2, h3, h4, h5, h6⟩ := h
  refine ⟨h1, ?_, h3, ?_, h5, h6⟩
  · rw [bumpTopic_topicPerformance]
    refine forall_snd_aupsert (P := fun (ts : TopicStats) => 1 ≤ ts.total)
      h2 ?_ ?_
    · intro v hv
      exact Nat.le_succ_of_le hv
    · exact Nat.le_refl 1
  · rw [bumpTopic_topicPerformance]
    refine forall_snd_aupsert
      (P := fun (ts : TopicStats) => ∀ c ∈ ts.weakAreas,
        (alookup c s.conceptMastery).isSome = true) h4 ?_ ?_
    · intro v hv
      exact hv
    · intro c hc
      exact absurd hc (List.not_mem_nil c)

theorem recordTime_stateInv {t : List Char} {tt : Option ℚ} {s : AgentState}
    (h : StateInv s) : StateInv (recordTime t tt s) := by
  obtain ⟨h1, h2, h3, h4, h5, h6⟩ := h
  rw [recordTime]
  split
  · exact ⟨h1,
      forall_snd_aadjust (P := fun (ts : TopicStats) => 1 ≤ ts.total)
        h2 (fun v hv => hv),
      h3,
      forall_snd_aadjust
        (P := fun (ts : TopicStats) => ∀ c ∈ ts.weakAreas,
          (alookup c s.conceptMastery).isSome = true) h4 (fun v hv => hv),
      h5, h6⟩
  · exact ⟨h1, h2, h3, h4, h5, h6⟩

theorem conceptStep_stateInv {t c : List Char} {i : Nat} {st : AgentState}
    (h : StateInv st) : StateInv (conceptStep t i st c) := by
  obtain ⟨h1, h2, h3, h4, h5, h6⟩ := h
  refine ⟨?_, ?_, ?_, ?_, h5, ?_⟩
  · refine forall_snd_aupsert (P := fun (w : ConceptStats) => 1 ≤ w.total)
      h1 ?_ ?_
    · intro w _
      exact Nat.succ_le_succ (Nat.zero_le w.total)
    · exact Nat.le_refl 1
  · refine forall_snd_aadjust (P := fun (ts : TopicStats) => 1 ≤ ts.total)
      h2 ?_
    intro v hv
    exact hv
  · intro x hx
    exact isSome_alookup_aupsert (h3 x hx)
  · refine forall_snd_aadjust
      (P := fun (ts : TopicStats) => ∀ x ∈ ts.weakAreas,
        (alookup x (conceptStep t i st c).conceptMastery).isSome = true)
      ?_ ?_
    · intro p hp x hx
      exact isSome_alookup_aupsert (h4 p hp x hx)
    · intro v hv
      exact hv
  · exact nodup_keys_aupsert h6

theorem weakStep_stateInv {t c : List Char} {st : AgentState}
    (h : StateInv st) : StateInv (weakStep t st c) := by
  obtain ⟨h1, h2, h3, h4, h5, h6⟩ := h
  cases hcm : alookup c st.conceptMastery with
  | none =>
    rw [weakStep_eq_none hcm]
    exact ⟨h1, h2, h3, h4, h5, h6⟩
  | some cs =>
    rw [weakStep_eq_some hcm]
    split
    · refine ⟨h1, ?_, ?_, ?_, ?_, h6⟩
      · refine forall_snd_aadjust (P := fun (ts : TopicStats) => 1 ≤ ts.total)
          h2 ?_
        intro v hv
        exact hv
      · intro x hx
        rcases mem_addSet.mp hx with hm | rfl
        · exact h3 x hm
        · rw [hcm]
          rfl
      · refine forall_snd_aadjust
          (P := fun (ts : TopicStats) => ∀ x ∈ ts.weakAreas,
            (alookup x st.conceptMastery).isSome = true) h4 ?_
        intro v hv x hx
        rcases mem_addSet.mp hx with hm | rfl
        · exact hv x hm
        · rw [hcm]
          rfl
      · exact nodup_addSet h5
    · exact ⟨h1, h2, h3, h4, h5, h6⟩

theorem pushHistory_stateInv {a b : List Char} {ic : Bool} {ev : List Char}
    {tt : Option ℚ} {cs : List (List Char)} {s : AgentState}
    (h : StateInv s) : StateInv (pushHistory a b ic ev tt cs s) := h

theorem trackCore_stateInv {t q : List Char} {ic : Bool} {ev : List Char}
    {tt : Option ℚ} {s : AgentState} (h : StateInv s) :
    StateInv (trackCore t q ic ev tt s) := by
  rw [trackCore]
  exact pushHistory_stateInv
    (foldl_preserve (fun st x hst => conceptStep_stateInv hst) _ _
      (recordTime_stateInv (bumpTopic_stateInv (bumpCounters_stateInv h))))

theorem trackAnswer_stateInv {t q : List Char} {ic : Bool} {ev : List Char}
    {tt : Option ℚ} {s : AgentState} (h : StateInv s) :
    StateInv (trackAnswer t q ic ev tt s) := by
  cases ic with
  | true =>
    rw [trackAnswer_eq_true rfl]
    exact trackCore_stateInv h
  | false =>
    rw [trackAnswer_eq_false rfl]
    exact foldl_preserve (fun st x hst => weakStep_stateInv hst) _ _
      (trackCore_stateInv h)

theorem initialState_stateInv : StateInv initialState := by
  refine ⟨?_, ?_, ?_, ?_, List.nodup_nil, List.nodup_nil⟩ <;>
    · intro p hp
      exact absurd hp (List.not_mem_nil p)

theorem applyCalls_stateInv (calls : List Call) :
    StateInv (applyCalls calls initialState) :=
  foldl_preserve (fun _ _ hst => trackAnswer_stateInv hst) calls
    initialState initialState_stateInv

/-- C9: after every finite sequence of `trackAnswer` calls on a fresh
agent, every concept in the global weak-area set, and every concept in any
topic's weak-area set, has an entry in the global concept-mastery map with
`total ≥ 1` — the ratio denominators read by `generateRecommendedFocus`
over weak-area concepts are never missing or zero. -/
theorem claim_C9_weak_areas_tracked (calls : List Call) :
    (∀ c ∈ (applyCalls calls initialState).weakAreas,
      ∃ cs, alookup c (applyCalls calls initialState).conceptMastery =
        some cs ∧ 1 ≤ cs.total) ∧
    (∀ p ∈ (applyCalls calls initialState).topicPerformance,
      ∀ c ∈ p.2.weakAreas,
        ∃ cs, alookup c (applyCalls calls initialState).conceptMastery =
          some cs ∧ 1 ≤ cs.total) := by
  obtain ⟨h1, h2, h3, h4, h5, h6⟩ := applyCalls_stateInv calls
  constructor
  · intro c hc
    obtain ⟨cs, hcs⟩ := Option.isSome_iff_exists.mp (h3 c hc)
    exact ⟨cs, hcs, h1 _ (alookup_mem hcs)⟩
  · intro p hp c hc
    obtain ⟨cs, hcs⟩ := Option.isSome_iff_exists.mp (h4 p hp c hc)
    exact ⟨cs, hcs, h1 _ (alookup_mem hcs)⟩

/-- Witness for C9: after one incorrect answer tagged `"array"`, the weak
concept `"array"` has a mastery entry with `total = 1 ≥ 1`. -/
theorem claim_C9_witness :
    ∃ cs, alookup (("array").toList)
        (applyCalls [⟨("T").toList, ("the array").toList, false, [], none⟩]
          initialState).conceptMastery = some cs ∧ 1 ≤ cs.total :=
  (claim_C9_weak_areas_tracked
    [⟨("T").toList, ("the array").toList, false, [], none⟩]).1
    (("array").toList) (by with_unfolding_all decide)

/-! ### C5: the zero-denominator report values -/

theorem jsPct_str_of_ne {c t : Nat} (h : ¬ t = 0) :
    jsPct c t = JsVal.str (roundTo2 ((c : ℚ) / (t : ℚ) * 100)) := by
  rw [jsPct, if_neg h]

/-- Counterexample to C5 as stated: with zero recorded answers the report
is produced without an exception and `overall.total = 0`, but
`overall.percentage` is the string `"NaN"` (what `((0/0)*100).toFixed(2)`
renders), which is neither the sentinel zero nor null. -/
theorem claim_C5_counterexample :
    (getPerformanceReport initialState).overall.total = 0 ∧
    (getPerformanceReport initialState).overall.percentage = JsVal.nanStr ∧
    JsVal.nanStr ≠ JsVal.num 0 ∧ JsVal.nanStr ≠ JsVal.null := by
  refine ⟨rfl, rfl, ?_, ?_⟩ <;> decide

/-- C5 (amended): `getPerformanceReport` does not raise on the fresh
state — it never calls `calculateAverageTime` — and returns
`overall.total = 0` with the well-defined string `"NaN"` as the overall
percentage (not a sentinel zero or null).  The average computation itself
recovers nothing: for a topic with no `timeSpent` entry
`calculateAverageTime` throws a `TypeError` (`undefined.length`), and it
returns the number `0` only for a present zero-length sample list; the
number `0` that sample-less topics show in the report is the
`averageTime: 0` initialiser of the topic record.  In every reachable
state the per-topic and per-concept percentage denominators are at least
1, so those percentages are ordinary rounded strings. -/
theorem claim_C5_zero_data_report :
    (getPerformanceReport initialState).overall = ⟨0, 0, JsVal.nanStr⟩ ∧
    (∀ t : List Char, ∀ s : AgentState, alookup t s.timeSpent = none →
      calculateAverageTime t s = Except.error ()) ∧
    (∀ t : List Char, ∀ s : AgentState, alookup t s.timeSpent = some [] →
      calculateAverageTime t s = Except.ok (JsVal.num 0)) ∧
    initTopicStats.averageTime = JsVal.num 0 ∧
    (∀ calls : List Call,
      ∀ p ∈ (getPerformanceReport (applyCalls calls initialState)).topicWise,
        ∃ q : ℚ, p.2.percentage = JsVal.str q) ∧
    (∀ calls : List Call,
      ∀ p ∈ (getPerformanceReport
          (applyCalls calls initialState)).conceptMastery,
        ∃ q : ℚ, p.2.percentage = JsVal.str q) := by
  refine ⟨rfl, ?_, ?_, rfl, ?_, ?_⟩
  · intro t s h
    rw [calculateAverageTime, h]
  · intro t s h
    rw [calculateAverageTime, h]
    rfl
  · intro calls p hp
    obtain ⟨h1, h2, h3, h4, h5, h6⟩ := applyCalls_stateInv calls
    obtain ⟨p0, hp0, rfl⟩ := List.mem_map.mp hp
    exact ⟨_, jsPct_str_of_ne (Nat.pos_iff_ne_zero.mp (h2 p0 hp0))⟩
  · intro calls p hp
    obtain ⟨h1, h2, h3, h4, h5, h6⟩ := applyCalls_stateInv calls
    obtain ⟨p0, hp0, rfl⟩ := List.mem_map.mp hp
    exact ⟨_, jsPct_str_of_ne (Nat.pos_iff_ne_zero.mp (h1 p0 hp0))⟩

/-- Witness for C5: on the fresh state, a topic with no `timeSpent` entry
makes `calculateAverageTime` throw (the `TypeError` of
`undefined.length`), rather than return a sentinel. -/
theorem claim_C5_witness :
    calculateAverageTime (("T").toList) initialState = Except.error () :=
  claim_C5_zero_data_report.2.1 (("T").toList) initialState (by decide)

/-! ### C10: the shape of `averageTime` in the report -/

theorem bumpCounters_timeSpent {i : Nat} {s : AgentState} :
    (bumpCounters i s).timeSpent = s.timeSpent := rfl

theorem bumpTopic_timeSpent {t : List Char} {i : Nat} {s : AgentState} :
    (bumpTopic t i s).timeSpent = s.timeSpent := rfl

theorem pushHistory_timeSpent {a b : List Char} {ic : Bool} {ev : List Char}
    {tt : Option ℚ} {cs : List (List Char)} {s : AgentState} :
    (pushHistory a b ic ev tt cs s).timeSpent = s.timeSpent := rfl

theorem foldl_conceptStep_timeSpent {t : List Char} {i : Nat} :
    ∀ (l : List (List Char)) (st : AgentState),
      (l.foldl (conceptStep t i) st).timeSpent = st.timeSpent := by
  intro l
  induction l with
  | nil => intro st; rfl
  | cons c l' ih => intro st; rw [List.foldl_cons, ih, conceptStep_timeSpent]

theorem foldl_weakStep_timeSpent {t : List Char} :
    ∀ (l : List (List Char)) (st : AgentState),
      (l.foldl (weakStep t) st).timeSpent = st.timeSpent := by
  intro l
  induction l with
  | nil => intro st; rfl
  | cons c l' ih => intro st; rw [List.foldl_cons, ih, weakStep_timeSpent]

theorem recordTime_timeSpent {t : List Char} {tt : Option ℚ} {s : AgentState} :
    (recordTime t tt s).timeSpent =
      if truthy tt = true then
        aupsert t (fun l => l ++ [tt.getD 0]) [] s.timeSpent
      else s.timeSpent := by
  rw [recordTime]
  cases htr : truthy tt <;> rfl

theorem recordTime_topicPerformance {t : List Char} {tt : Option ℚ}
    {s : AgentState} :
    (recordTime t tt s).topicPerformance =
      if truthy tt = true then
        aadjust t
          (fun ts => { ts with averageTime :=
            (avgOfTimes (((alookup t s.timeSpent).getD []) ++ [tt.getD 0])) })
          s.topicPerformance
      else s.topicPerformance := by
  rw [recordTime]
  cases htr : truthy tt <;> rfl

theorem trackCore_timeSpent {t q : List Char} {ic : Bool} {ev : List Char}
    {tt : Option ℚ} {s : AgentState} :
    (trackCore t q ic ev tt s).timeSpent =
      if truthy tt = true then
        aupsert t (fun l => l ++ [tt.getD 0]) [] s.timeSpent
      else s.timeSpent := by
  rw [trackCore, pushHistory_timeSpent, foldl_conceptStep_timeSpent,
    recordTime_timeSpent, bumpTopic_timeSpent, bumpCounters_timeSpent]

theorem trackAnswer_timeSpent {t q : List Char} {ic : Bool} {ev : List Char}
    {tt : Option ℚ} {s : AgentState} :
    (trackAnswer t q ic ev tt s).timeSpent =
      if truthy tt = true then
        aupsert t (fun l => l ++ [tt.getD 0]) [] s.timeSpent
      else s.timeSpent := by
  cases ic with
  | true => rw [trackAnswer_eq_true rfl, trackCore_timeSpent]
  | false =>
    rw [trackAnswer_eq_false rfl, foldl_weakStep_timeSpent, trackCore_timeSpent]

theorem avgOfTimes_append {l : List ℚ} {x : ℚ} :
    avgOfTimes (l ++ [x]) =
      JsVal.str (roundTo2
        ((l ++ [x]).sum / ((((l ++ [x]).length : Nat)) : ℚ))) := by
  rw [avgOfTimes, if_pos (by simp)]

theorem calculateAverageTime_at_push {t : List Char} {x : ℚ}
    {s : AgentState} :
    calculateAverageTime t
        { s with timeSpent := aupsert t (fun l => l ++ [x]) [] s.timeSpent } =
      Except.ok (avgOfTimes (((alookup t s.timeSpent).getD []) ++ [x])) := by
  show (match alookup t (aupsert t (fun l => l ++ [x]) [] s.timeSpent) with
    | none => (Except.error () : Except Unit JsVal)
    | some times => Except.ok (avgOfTimes times)) =
    Except.ok (avgOfTimes (((alookup t s.timeSpent).getD []) ++ [x]))
  rw [alookup_aupsert_self]

theorem timeInv_aadjust_avg {t : List Char} {g : TopicStats → TopicStats}
    (hg : ∀ v, (g v).averageTime = v.averageTime)
    {s s' : AgentState}
    (hTP : s'.topicPerformance = aadjust t g s.topicPerformance)
    (hTS : s'.timeSpent = s.timeSpent)
    (h : TimeInv s) : TimeInv s' := by
  obtain ⟨h1, h2, h3⟩ := h
  refine ⟨?_, ?_, ?_⟩
  · rw [hTS]
    exact h1
  · intro u hu
    rw [hTS]
    rw [hTP] at hu
    by_cases he : u = t
    · subst he
      rw [alookup_aadjust_self] at hu
      apply h2
      cases hx : alookup u s.topicPerformance with
      | none => rfl
      | some v =>
        rw [hx] at hu
        exact Option.noConfusion hu
    · rw [alookup_aadjust_ne he] at hu
      exact h2 u hu
  · intro u ts hts
    rw [hTS]
    rw [hTP] at hts
    by_cases he : u = t
    · subst he
      rw [alookup_aadjust_self] at hts
      cases hx : alookup u s.topicPerformance with
      | none =>
        rw [hx] at hts
        exact Option.noConfusion hts
      | some v =>
        rw [hx] at hts
        obtain rfl := Option.some.inj hts
        rw [hg v]
        exact h3 u v hx
    · rw [alookup_aadjust_ne he] at hts
      exact h3 u ts hts

theorem bumpCounters_timeInv {i : Nat} {s : AgentState} (h : TimeInv s) :
    TimeInv (bumpCounters i s) := h

theorem pushHistory_timeInv {a b : List Char} {ic : Bool} {ev : List Char}
    {tt : Option ℚ} {cs : List (List Char)} {s : AgentState}
    (h : TimeInv s) : TimeInv (pushHistory a b ic ev tt cs s) := h

theorem conceptStep_timeInv {t c : List Char} {i : Nat} {st : AgentState}
    (h : TimeInv st) : TimeInv (conceptStep t i st c) :=
  timeInv_aadjust_avg (s := st)
    (g := fun ts => { ts with conceptsTests :=
      (aupsert c
        (fun cs => { cs with total := cs.total + 1,
                             correct := cs.correct + i })
        ⟨0, 0⟩ ts.conceptsTests) })
    (fun _ => rfl) rfl rfl h

theorem weakStep_timeInv {t c : List Char} {st : AgentState}
    (h : TimeInv st) : TimeInv (weakStep t st c) := by
  cases hcm : alookup c st.conceptMastery with
  | none =>
    rw [weakStep_eq_none hcm]
    exact h
  | some cs =>
    rw [weakStep_eq_some hcm]
    split
    · exact timeInv_aadjust_avg (s := st)
        (g := fun ts => { ts with weakAreas := addSet c ts.weakAreas })
        (fun _ => rfl) rfl rfl h
    · exact h

theorem bumpTopic_timeInv {t : List Char} {i : Nat} {s : AgentState}
    (h : TimeInv s) : TimeInv (bumpTopic t i s) := by
  obtain ⟨h1, h2, h3⟩ := h
  refine ⟨h1, ?_, ?_⟩
  · intro u hu
    rw [bumpTopic_topicPerformance] at hu
    by_cases he : u = t
    · exfalso
      subst he
      rw [alookup_aupsert_self] at hu
      exact Option.noConfusion hu
    · rw [alookup_aupsert_ne he] at hu
      exact h2 u hu
  · intro u ts hts
    rw [bumpTopic_topicPerformance] at hts
    by_cases he : u = t
    · subst he
      rw [alookup_aupsert_self] at hts
      cases hx : alookup u s.topicPerformance with
      | none =>
        rw [hx] at hts
        obtain rfl := Option.some.inj hts
        rw [show alookup u (bumpTopic u i s).timeSpent = none from h2 u hx]
        rfl
      | some v =>
        rw [hx] at hts
        obtain rfl := Option.some.inj hts
        exact h3 u v hx
    · rw [alookup_aupsert_ne he] at hts
      exact h3 u ts hts

theorem recordTime_timeInv {t : List Char} {tt : Option ℚ} {s : AgentState}
    (hsome : (alookup t s.topicPerformance).isSome = true)
    (h : TimeInv s) : TimeInv (recordTime t tt s) := by
  obtain ⟨h1, h2, h3⟩ := h
  cases htr : truthy tt with
  | false =>
    have e : recordTime t tt s = s := by
      rw [recordTime, if_neg (show ¬ truthy tt = true by
        rw [htr]; exact Bool.false_ne_true)]
    rw [e]
    exact ⟨h1, h2, h3⟩
  | true =>
    have eTS : (recordTime t tt s).timeSpent =
        aupsert t (fun l => l ++ [tt.getD 0]) [] s.timeSpent := by
      rw [recordTime_timeSpent, if_pos htr]
    have eTP : (recordTime t tt s).topicPerformance =
        aadjust t
          (fun ts => { ts with averageTime :=
            (avgOfTimes (((alookup t s.timeSpent).getD []) ++ [tt.getD 0])) })
          s.topicPerformance := by
      rw [recordTime_topicPerformance, if_pos htr]
    refine ⟨?_, ?_, ?_⟩
    · rw [eTS]
      refine forall_snd_aupsert (P := fun (l : List ℚ) => l ≠ []) h1 ?_ ?_
      · intro v hv
        simp
      · simp
    · intro u hu
      rw [eTP] at hu
      rw [eTS]
      by_cases he : u = t
      · exfalso
        subst he
        rw [alookup_aadjust_self] at hu
        cases hx : alookup u s.topicPerformance with
        | none =>
          rw [hx] at hsome
          exact Bool.noConfusion hsome
        | some v =>
          rw [hx] at hu
          exact Option.noConfusion hu
      · rw [alookup_aupsert_ne he]
        rw [alookup_aadjust_ne he] at hu
        exact h2 u hu
    · intro u ts hts
      rw [eTP] at hts
      rw [eTS]
      by_cases he : u = t
      · subst he
        rw [alookup_aadjust_self] at hts
        cases hx : alookup u s.topicPerformance with
        | none =>
          rw [hx] at hts
          exact Option.noConfusion hts
        | some v =>
          rw [hx] at hts
          obtain rfl := Option.some.inj hts
          rw [alookup_aupsert_self]
          show avgOfTimes (((alookup u s.timeSpent).getD []) ++ [tt.getD 0]) =
            _
          rw [avgOfTimes_append]
      · rw [alookup_aupsert_ne he]
        rw [alookup_aadjust_ne he] at hts
        exact h3 u ts hts

theorem trackCore_timeInv {t q : List Char} {ic : Bool} {ev : List Char}
    {tt : Option ℚ} {s : AgentState} (h : TimeInv s) :
    TimeInv (trackCore t q ic ev tt s) := by
  rw [trackCore]
  exact pushHistory_timeInv
    (foldl_preserve (fun _ _ hst => conceptStep_timeInv hst) _ _
      (recordTime_timeInv bumpTopic_topic_isSome
        (bumpTopic_timeInv (bumpCounters_timeInv h))))

theorem trackAnswer_timeInv {t q : List Char} {ic : Bool} {ev : List Char}
    {tt : Option ℚ} {s : AgentState} (h : TimeInv s) :
    TimeInv (trackAnswer t q ic ev tt s) := by
  cases ic with
  | true =>
    rw [trackAnswer_eq_true rfl]
    exact trackCore_timeInv h
  | false =>
    rw [trackAnswer_eq_false rfl]
    exact foldl_preserve (fun _ _ hst => weakStep_timeInv hst) _ _
      (trackCore_timeInv h)

theorem initialState_timeInv : TimeInv initialState := by
  refine ⟨?_, ?_, ?_⟩
  · intro p hp
    exact absurd hp (List.not_mem_nil p)
  · intro u hu
    rfl
  · intro u ts hts
    have h2 : (none : Option TopicStats) = some ts := hts
    exact Option.noConfusion h2

theorem applyCalls_timeInv (calls : List Call) :
    TimeInv (applyCalls calls initialState) :=
  foldl_preserve (fun _ _ hst => trackAnswer_timeInv hst) calls
    initialState initialState_timeInv

theorem timeSamples_cons {t : List Char} {c : Call} {calls : List Call} :
    timeSamples t (c :: calls) =
      if c.topic = t ∧ truthy c.timeTaken = true then
        c.timeTaken.getD 0 :: timeSamples t calls
      else timeSamples t calls := by
  by_cases hc : c.topic = t ∧ truthy c.timeTaken = true
  · rw [if_pos hc]
    cases hx : c.timeTaken with
    | none =>
      rw [hx] at hc
      exact absurd hc.2 Bool.false_ne_true
    | some v =>
      rw [timeSamples, List.filterMap_cons, if_pos hc, hx]
      rfl
  · rw [if_neg hc]
    rw [timeSamples, List.filterMap_cons, if_neg hc]
    rfl

theorem applyCalls_timeSpent_alookup :
    ∀ (calls : List Call) (s : AgentState) (t : List Char),
      alookup t (applyCalls calls s).timeSpent =
        match alookup t s.timeSpent with
        | some l0 => some (l0 ++ timeSamples t calls)
        | none =>
          if timeSamples t calls = [] then none
          else some (timeSamples t calls) := by
  intro calls
  induction calls with
  | nil =>
    intro s t
    show alookup t s.timeSpent = _
    cases hx : alookup t s.timeSpent with
    | none => rfl
    | some l0 =>
      show some l0 = some (l0 ++ timeSamples t [])
      rw [show timeSamples t [] = [] from rfl, List.append_nil]
  | cons c calls ih =>
    intro s t
    show alookup t (applyCalls calls (trackAnswer c.topic c.question
      c.isCorrect c.evaluation c.timeTaken s)).timeSpent = _
    rw [ih, trackAnswer_timeSpent, timeSamples_cons]
    cases htr : truthy c.timeTaken with
    | false =>
      rw [if_neg (show ¬ (false = true) from Bool.false_ne_true),
        if_neg (show ¬ (c.topic = t ∧ false = true) from
          fun hc => Bool.false_ne_true hc.2)]
    | true =>
      rw [if_pos (show (true = true) from rfl)]
      by_cases hct : c.topic = t
      · subst hct
        rw [if_pos (show c.topic = c.topic ∧ true = true from ⟨rfl, rfl⟩),
          alookup_aupsert_self]
        cases hx : alookup c.topic s.timeSpent with
        | none => rfl
        | some l0 =>
          show some ((l0 ++ [c.timeTaken.getD 0]) ++ timeSamples c.topic calls)
            = some (l0 ++ (c.timeTaken.getD 0 :: timeSamples c.topic calls))
          rw [List.append_assoc]
          rfl
      · rw [if_neg (show ¬ (c.topic = t ∧ true = true) from
            fun hc => hct hc.1),
          alookup_aupsert_ne (Ne.symm hct)]

/-- C10: in every reachable state, a topic that has received calls but no
truthy `timeTaken` sample reports `averageTime` as the number `0` (the
initial value), while a topic with at least one truthy sample reports the
`toFixed(2)` string of the arithmetic mean of its samples — two values of
different shapes at the report interface (`getPerformanceReport` copies
each topic's `averageTime` into the report unchanged). -/
theorem claim_C10_average_time_shape (calls : List Call) (t : List Char)
    (ts : TopicStats)
    (h : alookup t (applyCalls calls initialState).topicPerformance =
      some ts) :
    (timeSamples t calls = [] → ts.averageTime = JsVal.num 0) ∧
    (timeSamples t calls ≠ [] →
      ts.averageTime = JsVal.str (roundTo2 ((timeSamples t calls).sum /
        (((timeSamples t calls).length : Nat) : ℚ)))) ∧
    (∀ q : ℚ, JsVal.num 0 ≠ JsVal.str q) := by
  obtain ⟨h1, h2, h3⟩ := applyCalls_timeInv calls
  have havg := h3 t ts h
  have hsp := applyCalls_timeSpent_alookup calls initialState t
  rw [show alookup t initialState.timeSpent = none from rfl] at hsp
  rw [hsp] at havg
  refine ⟨?_, ?_, fun q hq => JsVal.noConfusion hq⟩
  · intro hnil
    rw [if_pos hnil] at havg
    exact havg
  · intro hne
    rw [if_neg hne] at havg
    exact havg

/-- Witness for C10: after one call on topic `"T"` with a truthy 5-second
sample, the topic record carries the string-shaped average
`(5 / 1).toFixed(2)`. -/
theorem claim_C10_witness :
    (⟨1, 1, [], [], JsVal.str 5⟩ : TopicStats).averageTime =
      JsVal.str (roundTo2
        ((timeSamples (("T").toList)
            [⟨("T").toList, ("q").toList, true, [], some 5⟩]).sum /
          (((timeSamples (("T").toList)
              [⟨("T").toList, ("q").toList, true, [], some 5⟩]).length :
            Nat) : ℚ))) :=
  (claim_C10_average_time_shape
    [⟨("T").toList, ("q").toList, true, [], some 5⟩] (("T").toList)
    ⟨1, 1, [], [], JsVal.str 5⟩ (by with_unfolding_all decide)).2.1
    (by with_unfolding_all decide)

/-! ### C2: the recommended-focus list -/

theorem countP_ext {p q : α → Bool} :
    ∀ {l : List α}, (∀ a ∈ l, p a = q a) → l.countP p = l.countP q := by
  intro l
  induction l with
  | nil => intro _; rfl
  | cons a l ih =>
    intro h
    rw [List.countP_cons, List.countP_cons,
      ih (fun b hb => h b (List.mem_cons_of_mem a hb)),
      h a (List.mem_cons_self a l)]

theorem countP_filterMap (f : α → Option β) (p : β → Bool) :
    ∀ (l : List α),
      (l.filterMap f).countP p =
        l.countP (fun a => ((f a).map p).getD false) := by
  intro l
  induction l with
  | nil => rfl
  | cons a l ih =>
    rw [List.filterMap_cons]
    cases hf : f a with
    | none =>
      rw [List.countP_cons, ih, hf]
      rfl
    | some b =>
      rw [List.countP_cons, List.countP_cons, ih, hf]
      rfl

theorem countP_key_nodup {c : List Char} {X : Bool} :
    ∀ {l : List (List Char)}, l.Nodup →
      l.countP (fun a => if a = c then X else false) =
        if c ∈ l then (if X = true then 1 else 0) else 0 := by
  intro l
  induction l with
  | nil => intro _; rfl
  | cons a l ih =>
    intro h
    obtain ⟨hnm, hnd⟩ := List.nodup_cons.mp h
    rw [List.countP_cons, ih hnd]
    by_cases hac : a = c
    · subst hac
      rw [if_neg hnm, if_pos (List.mem_cons_self a l),
        if_pos (show (a = a) from rfl), Nat.zero_add]
    · by_cases hm : c ∈ l
      · rw [if_pos hm, if_pos (List.mem_cons_of_mem a hm), if_neg hac]
        simp
      · rw [if_neg hm,
          if_neg (show ¬ c ∈ a :: l from fun hmem =>
            (List.mem_cons.mp hmem).elim (fun he => hac he.symm) hm),
          if_neg hac]
        simp

theorem countP_assoc_nodup {c : List Char} {X : β → Bool} :
    ∀ {l : List ((List Char) × β)}, (l.map Prod.fst).Nodup →
      l.countP (fun p => if p.1 = c then X p.2 else false) =
        (match alookup c l with
         | some v => if X v = true then 1 else 0
         | none => 0) := by
  intro l
  induction l with
  | nil => intro _; rfl
  | cons p l ih =>
    obtain ⟨k, v⟩ := p
    intro h
    rw [List.map_cons] at h
    obtain ⟨hnm, hnd⟩ := List.nodup_cons.mp h
    rw [List.countP_cons, ih hnd]
    by_cases hk : k = c
    · subst hk
      rw [alookup_cons_self, alookup_eq_none_iff.mpr hnm,
        if_pos (show ((k, v).1 = k) from rfl)]
      show 0 + (if X v = true then 1 else 0) = if X v = true then 1 else 0
      exact Nat.zero_add _
    · rw [alookup_cons_ne (Ne.symm hk),
        if_neg (show ¬ ((k, v).1 = c) from hk)]
      simp

theorem alookup_of_mem_nodup {k : List Char} {v : β} :
    ∀ {l : List ((List Char) × β)}, (k, v) ∈ l →
      (l.map Prod.fst).Nodup → alookup k l = some v := by
  intro l
  induction l with
  | nil => intro h _; exact absurd h (List.not_mem_nil _)
  | cons p rest ih =>
    obtain ⟨k', w⟩ := p
    intro hm hnd
    rw [List.map_cons] at hnd
    obtain ⟨hn1, hn2⟩ := List.nodup_cons.mp hnd
    rcases List.mem_cons.mp hm with he | hm'
    · injection he with h1 h2
      subst h1
      subst h2
      exact alookup_cons_self
    · by_cases hk : k = k'
      · subst hk
        exact absurd (List.mem_map.mpr ⟨(k, v), hm', rfl⟩) hn1
      · rw [alookup_cons_ne hk]
        exact ih hm' hn2

theorem weakEntry_eq_none {s : AgentState} {a : List Char}
    (h : alookup a s.conceptMastery = none) : weakEntry s a = none := by
  rw [weakEntry, h]

theorem weakEntry_eq_some {s : AgentState} {a : List Char}
    {cs : ConceptStats} (h : alookup a s.conceptMastery = some cs) :
    weakEntry s a =
      if masteryLt cs (3 / 5) = true then some ⟨a, true, pctOf cs⟩
      else none := by
  rw [weakEntry, h]

theorem practiceEntry_eq {s : AgentState} {p : (List Char) × ConceptStats} :
    practiceEntry s p =
      if p.1 ∈ s.weakAreas then none
      else if masteryLt p.2 (4 / 5) = true then
        some ⟨p.1, false, pctOf p.2⟩
      else none := rfl

theorem weak_side_count {s : AgentState} {c : List Char}
    (h5 : s.weakAreas.Nodup) :
    (s.weakAreas.filterMap (weakEntry s)).countP
        (fun r => decide (r.concept = c) && r.isWeak) =
      if specWeakEntry s c = true then 1 else 0 := by
  rw [countP_filterMap]
  have hpt : ∀ a ∈ s.weakAreas,
      ((weakEntry s a).map
          (fun r => decide (r.concept = c) && r.isWeak)).getD false =
        (if a = c then
          (match alookup c s.conceptMastery with
           | some cs => masteryLt cs (3 / 5)
           | none => false)
         else false) := by
    intro a _
    by_cases hac : a = c
    · subst hac
      rw [if_pos (show (a = a) from rfl)]
      cases hcm : alookup a s.conceptMastery with
      | none =>
        rw [weakEntry_eq_none hcm]
        rfl
      | some cs =>
        rw [weakEntry_eq_some hcm]
        show ((if masteryLt cs (3 / 5) = true then
            some (⟨a, true, pctOf cs⟩ : FocusRec) else none).map
              (fun r => decide (r.concept = a) && r.isWeak)).getD false =
          masteryLt cs (3 / 5)
        cases hml : masteryLt cs (3 / 5) with
        | false =>
          rw [if_neg (show ¬ (false = true) from Bool.false_ne_true)]
          rfl
        | true =>
          rw [if_pos (show (true = true) from rfl)]
          simp
    · rw [if_neg hac]
      cases hcm : alookup a s.conceptMastery with
      | none =>
        rw [weakEntry_eq_none hcm]
        rfl
      | some cs =>
        rw [weakEntry_eq_some hcm]
        cases hml : masteryLt cs (3 / 5) with
        | false =>
          rw [if_neg (show ¬ (false = true) from Bool.false_ne_true)]
          rfl
        | true =>
          rw [if_pos (show (true = true) from rfl)]
          simp [hac]
  rw [countP_ext hpt, countP_key_nodup h5, specWeakEntry]
  by_cases hm : c ∈ s.weakAreas
  · rw [if_pos hm,
      show decide (c ∈ s.weakAreas) = true from decide_eq_true hm,
      Bool.true_and]
  · rw [if_neg hm,
      show decide (c ∈ s.weakAreas) = false from decide_eq_false hm,
      Bool.false_and]
    rfl

theorem practice_side_count {s : AgentState} {c : List Char}
    (h6 : (s.conceptMastery.map Prod.fst).Nodup) :
    (s.conceptMastery.filterMap (practiceEntry s)).countP
        (fun r => decide (r.concept = c) && !r.isWeak) =
      if specPracticeEntry s c = true then 1 else 0 := by
  rw [countP_filterMap]
  have hpt : ∀ p ∈ s.conceptMastery,
      ((practiceEntry s p).map
          (fun r => decide (r.concept = c) && !r.isWeak)).getD false =
        (if p.1 = c then
          (!decide (c ∈ s.weakAreas) && masteryLt p.2 (4 / 5))
         else false) := by
    intro p _
    by_cases hpc : p.1 = c
    · subst hpc
      rw [if_pos (show (p.1 = p.1) from rfl), practiceEntry_eq]
      by_cases hw : p.1 ∈ s.weakAreas
      · rw [if_pos hw,
          show decide (p.1 ∈ s.weakAreas) = true from decide_eq_true hw]
        rfl
      · rw [if_neg hw,
          show decide (p.1 ∈ s.weakAreas) = false from decide_eq_false hw]
        cases hml : masteryLt p.2 (4 / 5) with
        | false =>
          rw [if_neg (show ¬ (false = true) from Bool.false_ne_true)]
          rfl
        | true =>
          rw [if_pos (show (true = true) from rfl)]
          simp
    · rw [if_neg hpc, practiceEntry_eq]
      by_cases hw : p.1 ∈ s.weakAreas
      · rw [if_pos hw]
        rfl
      · rw [if_neg hw]
        cases hml : masteryLt p.2 (4 / 5) with
        | false =>
          rw [if_neg (show ¬ (false = true) from Bool.false_ne_true)]
          rfl
        | true =>
          rw [if_pos (show (true = true) from rfl)]
          simp [hpc]
  rw [countP_ext hpt,
    countP_assoc_nodup
      (X := fun cs => !decide (c ∈ s.weakAreas) && masteryLt cs (4 / 5)) h6,
    specPracticeEntry]
  cases hcm : alookup c s.conceptMastery with
  | none => cases hd : decide (c ∈ s.weakAreas) <;> rfl
  | some v => rfl

theorem weak_side_count_practice {s : AgentState} {c : List Char} :
    (s.weakAreas.filterMap (weakEntry s)).countP
        (fun r => decide (r.concept = c) && !r.isWeak) = 0 := by
  rw [List.countP_eq_zero]
  intro r hr
  obtain ⟨a, ha, hwe⟩ := List.mem_filterMap.mp hr
  cases hcm : alookup a s.conceptMastery with
  | none =>
    rw [weakEntry_eq_none hcm] at hwe
    exact Option.noConfusion hwe
  | some cs =>
    rw [weakEntry_eq_some hcm] at hwe
    by_cases hml : masteryLt cs (3 / 5) = true
    · rw [if_pos hml] at hwe
      obtain rfl := Option.some.inj hwe
      simp
    · rw [if_neg hml] at hwe
      exact Option.noConfusion hwe

theorem practice_side_count_weak {s : AgentState} {c : List Char} :
    (s.conceptMastery.filterMap (practiceEntry s)).countP
        (fun r => decide (r.concept = c) && r.isWeak) = 0 := by
  rw [List.countP_eq_zero]
  intro r hr
  obtain ⟨p, hp, hpe⟩ := List.mem_filterMap.mp hr
  rw [practiceEntry_eq] at hpe
  by_cases hw : p.1 ∈ s.weakAreas
  · rw [if_pos hw] at hpe
    exact Option.noConfusion hpe
  · rw [if_neg hw] at hpe
    by_cases hml : masteryLt p.2 (4 / 5) = true
    · rw [if_pos hml] at hpe
      obtain rfl := Option.some.inj hpe
      simp
    · rw [if_neg hml] at hpe
      exact Option.noConfusion hpe

theorem mem_focus_iff {s : AgentState} {r : FocusRec} :
    r ∈ generateRecommendedFocus s ↔
      (∃ a ∈ s.weakAreas, ∃ cs, alookup a s.conceptMastery = some cs ∧
        masteryLt cs (3 / 5) = true ∧ r = ⟨a, true, pctOf cs⟩) ∨
      (∃ p ∈ s.conceptMastery, p.1 ∉ s.weakAreas ∧
        masteryLt p.2 (4 / 5) = true ∧ r = ⟨p.1, false, pctOf p.2⟩) := by
  rw [generateRecommendedFocus,
    (List.perm_insertionSort focusLE _).mem_iff, List.mem_append]
  constructor
  · rintro (hw | hp)
    · obtain ⟨a, ha, hwe⟩ := List.mem_filterMap.mp hw
      cases hcm : alookup a s.conceptMastery with
      | none =>
        rw [weakEntry_eq_none hcm] at hwe
        exact Option.noConfusion hwe
      | some cs =>
        rw [weakEntry_eq_some hcm] at hwe
        by_cases hml : masteryLt cs (3 / 5) = true
        · rw [if_pos hml] at hwe
          exact Or.inl ⟨a, ha, cs, hcm, hml, (Option.some.inj hwe).symm⟩
        · rw [if_neg hml] at hwe
          exact Option.noConfusion hwe
    · obtain ⟨p, hp, hpe⟩ := List.mem_filterMap.mp hp
      rw [practiceEntry_eq] at hpe
      by_cases hw2 : p.1 ∈ s.weakAreas
      · rw [if_pos hw2] at hpe
        exact Option.noConfusion hpe
      · rw [if_neg hw2] at hpe
        by_cases hml : masteryLt p.2 (4 / 5) = true
        · rw [if_pos hml] at hpe
          exact Or.inr ⟨p, hp, hw2, hml, (Option.some.inj hpe).symm⟩
        · rw [if_neg hml] at hpe
          exact Option.noConfusion hpe
  · rintro (⟨a, ha, cs, hcm, hml, rfl⟩ | ⟨p, hp, hw2, hml, rfl⟩)
    · refine Or.inl (List.mem_filterMap.mpr ⟨a, ha, ?_⟩)
      rw [weakEntry_eq_some hcm, if_pos hml]
    · refine Or.inr (List.mem_filterMap.mpr ⟨p, hp, ?_⟩)
      rw [practiceEntry_eq, if_neg hw2, if_pos hml]

/-- C2: in every reachable state, `generateRecommendedFocus` is sorted
ascending by mastery and contains exactly one `'weak'` entry for each
weak-area concept whose global ratio is strictly below 0.60, exactly one
`'practice'` entry for each tracked concept outside the weak-area set
whose ratio is strictly below 0.80, no entry at all for any other concept
(in particular none for a weak-area concept with ratio at least 0.60),
and every entry carries the `toFixed(2)` mastery percentage of its
concept's global counters. -/
theorem claim_C2_recommended_focus (calls : List Call) :
    ((generateRecommendedFocus (applyCalls calls initialState)).Sorted
        focusLE) ∧
    (∀ c : List Char,
      (generateRecommendedFocus (applyCalls calls initialState)).countP
          (fun r => decide (r.concept = c) && r.isWeak) =
        (if specWeakEntry (applyCalls calls initialState) c = true
         then 1 else 0)) ∧
    (∀ c : List Char,
      (generateRecommendedFocus (applyCalls calls initialState)).countP
          (fun r => decide (r.concept = c) && !r.isWeak) =
        (if specPracticeEntry (applyCalls calls initialState) c = true
         then 1 else 0)) ∧
    (∀ c : List Char,
      specWeakEntry (applyCalls calls initialState) c = false →
      specPracticeEntry (applyCalls calls initialState) c = false →
      ∀ r ∈ generateRecommendedFocus (applyCalls calls initialState),
        r.concept ≠ c) ∧
    (∀ r ∈ generateRecommendedFocus (applyCalls calls initialState),
      ∃ cs, alookup r.concept
          (applyCalls calls initialState).conceptMastery = some cs ∧
        r.mastery = pctOf cs) := by
  obtain ⟨h1i, h2i, h3i, h4i, h5, h6⟩ := applyCalls_stateInv calls
  refine ⟨List.sorted_insertionSort focusLE _, ?_, ?_, ?_, ?_⟩
  · intro c
    rw [generateRecommendedFocus,
      (List.perm_insertionSort focusLE _).countP_eq, List.countP_append,
      weak_side_count h5, practice_side_count_weak, Nat.add_zero]
  · intro c
    rw [generateRecommendedFocus,
      (List.perm_insertionSort focusLE _).countP_eq, List.countP_append,
      weak_side_count_practice, practice_side_count h6, Nat.zero_add]
  · intro c hwF hpF r hr
    rcases mem_focus_iff.mp hr with
      ⟨a, ha, cs, hcm, hml, rfl⟩ | ⟨p, hp, hw2, hml, rfl⟩
    · intro hcc
      have hac : a = c := hcc
      subst hac
      have ht : specWeakEntry (applyCalls calls initialState) a = true := by
        rw [specWeakEntry,
          show decide (a ∈ (applyCalls calls initialState).weakAreas) = true
            from decide_eq_true ha,
          Bool.true_and, hcm]
        exact hml
      exact Bool.noConfusion (hwF.symm.trans ht)
    · intro hcc
      have hac : p.1 = c := hcc
      subst hac
      have ht : specPracticeEntry (applyCalls calls initialState) p.1 =
          true := by
        rw [specPracticeEntry,
          show decide (p.1 ∈ (applyCalls calls initialState).weakAreas) =
            false from decide_eq_false hw2,
          Bool.not_false, Bool.true_and, alookup_of_mem_nodup hp h6]
        exact hml
      exact Bool.noConfusion (hpF.symm.trans ht)
  · intro r hr
    rcases mem_focus_iff.mp hr with
      ⟨a, ha, cs, hcm, hml, rfl⟩ | ⟨p, hp, hw2, hml, rfl⟩
    · exact ⟨cs, hcm, rfl⟩
    · exact ⟨p.2, alookup_of_mem_nodup hp h6, rfl⟩

/-- Witness for C2: after one incorrect answer tagged `"array"`, the
focus list holds the weak entry for `"array"`, and its concept differs
from the untracked concept `"function"`, whose spec-side weak and
practice predicates are both false. -/
theorem claim_C2_witness :
    (⟨("array").toList, true, (0 : ℚ)⟩ : FocusRec).concept ≠
      ("function").toList :=
  (claim_C2_recommended_focus
      [⟨("T").toList, ("the array").toList, false, [], none⟩]).2.2.2.1
    (("function").toList) (by with_unfolding_all decide)
    (by with_unfolding_all decide)
    ⟨("array").toList, true, (0 : ℚ)⟩ (by with_unfolding_all decide)

end InterviewPrep
